import Mathlib

/-!
# The virex tokenizer (`src/lexer/lexer.cpp`)

A shallow embedding of the scanner of `lexer.cpp` and the properties of it that
the specification states.

Modelling conventions.

* The borrowed `std::ifstream` is the list of bytes it has not yet delivered
  (`Lexer.file`).  `file.get()` removes the head of that list and returns it, or
  returns `EOF` on the empty list; `file.peek()` returns the head without
  removing it.
* `current_char`, an `int` in the source, is an `Int`; `EOF` is `-1`.
* The local `char lexeme[MAX_LEXEME_LENGTH]` buffer together with its write
  index `length` is the list of the bytes stored so far: a store
  `lexeme[length++] = c` appends `c`, so the length of the list is the write
  index.  The list is not bounded, which lets a store at an index of 256 or
  more (out of bounds in the source, where it is undefined) be observed;
  `lex_string_defined` tells whether every write of a call is inside the buffer.
* A `while` loop is a function that recurses on a step budget.  The function
  that runs the loop passes a budget of one step per unread byte plus one.  Each
  step of a loop consumes a byte, so this budget is never what ends a loop: the
  theorems `skip_whitespace_loop_fuel`, `lex_string_loop_fuel`, ... show that
  every budget of at least `remaining lexer` gives the same result, and
  `skip_whitespace_eq` and `lex_next_token_eq` give the equations of the two
  recursions of the source.
* A scanner hands its buffer to `lookup_keyword` and `create_token` as a
  pointer to a NUL-terminated string, without the length: the lexeme is
  `c_string` of the bytes stored, the bytes before the first NUL.
* The entries of `keywords` after the seventeen initialisers have a null
  `word`.  Comparing a `std::string` with a null pointer is undefined in C++
  (the program is stopped by the memory fault).  `lookup_keyword_defined` tells
  whether a lookup returns before it reaches such an entry, which is the case
  exactly for the reserved spellings (`lookup_keyword_defined_iff_reserved`).
* `lex_next_token_defined lexer` tells whether the call `lex_next_token(lexer)`
  executes no undefined operation.  Where it holds, the call returns
  `lex_next_token lexer`.  Where it fails, the source returns nothing, and the
  value of `lex_next_token lexer` (computed as if the null comparison were
  false and the buffer unbounded) stands for no result of the source.
* Bytes are natural numbers; a stream delivers values below 256.
* The globals `unget_buffer` and `unget_buffer_index` are the record
  `UngetState`, which `lex_unget_token` takes and returns.
* `destroy_lexer` is the list of the objects that its `delete` expressions
  release.
* Writes to `std::cerr` are not part of the model.
-/

namespace Virex

/-- Modelled from the spec: the enumeration of `include/lexer/token_types.h`,
a closed set of token kinds.  Its members are the enumerators that `lexer.cpp`
names. -/
inductive TokenType where
  | TOKEN_INT | TOKEN_STR | TOKEN_BOOL | TOKEN_LET | TOKEN_CONST | TOKEN_FUNCTION
  | TOKEN_IF | TOKEN_ELSE | TOKEN_FOR | TOKEN_WHILE | TOKEN_RETURN
  | TOKEN_CLASS | TOKEN_IMPORT | TOKEN_TRUE | TOKEN_FALSE | TOKEN_NULL | TOKEN_PRINT
  | TOKEN_IDENTIFIER | TOKEN_STRING_LITERAL
  | TOKEN_PLUS | TOKEN_MINUS | TOKEN_ASTERISK | TOKEN_SLASH | TOKEN_PERCENT
  | TOKEN_ASSIGN | TOKEN_LPAREN | TOKEN_RPAREN | TOKEN_LBRACE | TOKEN_RBRACE
  | TOKEN_LBRACKET | TOKEN_RBRACKET | TOKEN_COMMA | TOKEN_SEMICOLON
  | TOKEN_EOF | TOKEN_ERROR
  deriving DecidableEq, Repr

open TokenType

/-- Modelled from the spec: the `Token` record of `include/lexer/token.h`
(kind, lexeme, line, column).  The lexeme is a list of bytes. -/
structure Token where
  type : TokenType
  lexeme : List Nat
  line : Nat
  column : Nat
  deriving DecidableEq, Repr

/-- Modelled from the spec: `create_token` of `include/lexer/token.h`, which
builds the token value from its four arguments.  Its `lexeme` parameter is a
pointer to a NUL-terminated string: a caller passes the text that such a
pointer denotes, `c_string` of its buffer or the bytes of a string literal. -/
def create_token (type : TokenType) (lexeme : List Nat) (line column : Nat) : Token :=
  { type := type, lexeme := lexeme, line := line, column := column }

/-- The text that a pointer to the `char` array `buffer` denotes once the array is
read as a NUL-terminated string, as `create_token` and `lookup_keyword` read it:
the bytes before the first NUL.  The array carries no length, so what a scanner
stored after a NUL byte is not part of the text. -/
def c_string (buffer : List Nat) : List Nat := buffer.takeWhile (fun b => b ≠ 0)

/-- The bytes of an ASCII string, used to write inputs and lexemes legibly. -/
def bytes (s : String) : List Nat := s.toList.map Char.toNat

def MAX_LEXEME_LENGTH : Nat := 256
def KEYWORD_COUNT : Nat := 25
def MAX_UNGET_TOKENS : Nat := 256

/-- The end-of-input value that `get` and `peek` return. -/
def EOF : Int := -1

/-- Modelled from the spec: the `Lexer` record of `include/lexer/lexer.h`
(character source, current character, line, column). -/
structure Lexer where
  file : List Nat
  current_char : Int
  line : Nat
  column : Nat
  deriving DecidableEq, Repr

/-- The call `file.get()`: the next byte and the stream without it, or `EOF`. -/
def file_get : List Nat → Int × List Nat
  | [] => (EOF, [])
  | b :: rest => ((b : Int), rest)

/-- The call `file.peek()`: the next byte, not consumed, or `EOF`. -/
def file_peek : List Nat → Int
  | [] => EOF
  | b :: _ => (b : Int)

/-- The test `std::isspace` in the "C" locale: space and the controls 9 to 13. -/
def isspace (c : Int) : Bool := c == 32 || (9 ≤ c && c ≤ 13)

/-- The test `std::isdigit`. -/
def isdigit (c : Int) : Bool := 48 ≤ c && c ≤ 57

/-- The test `std::isalpha` in the "C" locale. -/
def isalpha (c : Int) : Bool := (65 ≤ c && c ≤ 90) || (97 ≤ c && c ≤ 122)

/-- The test `std::isalnum` in the "C" locale. -/
def isalnum (c : Int) : Bool := isalpha c || isdigit c

/-- The byte kept by a store of the `int` value `c` into a `char` slot. -/
def to_char (c : Int) : Nat := (c % 256).toNat

def create_lexer (file : List Nat) : Lexer :=
  { file := (file_get file).2, current_char := (file_get file).1, line := 1, column := 1 }

def lex_advance (lexer : Lexer) : Lexer :=
  { file := (file_get lexer.file).2
    current_char := (file_get lexer.file).1
    line := if lexer.current_char = 10 then lexer.line + 1 else lexer.line
    column := if lexer.current_char = 10 then 1 else lexer.column + 1 }

/-- The loop of `skip_whitespace`. -/
def skip_whitespace_loop : Nat → Lexer → Lexer
  | 0, lexer => lexer
  | fuel + 1, lexer =>
    if isspace lexer.current_char then skip_whitespace_loop fuel (lex_advance lexer)
    else lexer

def skip_whitespace (lexer : Lexer) : Lexer :=
  skip_whitespace_loop (lexer.file.length + 1) lexer

/-- The loop of the `//` branch of `skip_comments`. -/
def skip_line_loop : Nat → Lexer → Lexer
  | 0, lexer => lexer
  | fuel + 1, lexer =>
    if lexer.current_char ≠ 10 ∧ lexer.current_char ≠ EOF then
      skip_line_loop fuel (lex_advance lexer)
    else lexer

/-- The loop of the `/*` branch of `skip_comments`. -/
def skip_block_loop : Nat → Lexer → Lexer
  | 0, lexer => lexer
  | fuel + 1, lexer =>
    if lexer.current_char ≠ EOF then
      if lexer.current_char = 42 then
        if (lex_advance lexer).current_char = 47 then lex_advance (lex_advance lexer)
        else skip_block_loop fuel (lex_advance lexer)
      else skip_block_loop fuel (lex_advance lexer)
    else lexer

def skip_comments (lexer : Lexer) : Lexer :=
  if lexer.current_char = 47 then
    let l1 := lex_advance lexer
    if l1.current_char = 47 then
      let l2 := skip_line_loop (l1.file.length + 1) l1
      if l2.current_char = 10 then lex_advance l2 else l2
    else if l1.current_char = 42 then
      let l2 := lex_advance l1
      skip_block_loop (l2.file.length + 1) l2
    else l1
  else lexer

/-- An entry of the keyword table; `word` is `none` for a null pointer. -/
structure Keyword where
  word : Option (List Nat)
  type : TokenType
  deriving DecidableEq, Repr

/-- The initialisers written in the source for `keywords`. -/
def keyword_initialisers : List Keyword :=
  [ ⟨some (bytes "int"), TOKEN_INT⟩, ⟨some (bytes "str"), TOKEN_STR⟩,
    ⟨some (bytes "bool"), TOKEN_BOOL⟩, ⟨some (bytes "let"), TOKEN_LET⟩,
    ⟨some (bytes "const"), TOKEN_CONST⟩, ⟨some (bytes "function"), TOKEN_FUNCTION⟩,
    ⟨some (bytes "if"), TOKEN_IF⟩, ⟨some (bytes "else"), TOKEN_ELSE⟩,
    ⟨some (bytes "for"), TOKEN_FOR⟩, ⟨some (bytes "while"), TOKEN_WHILE⟩,
    ⟨some (bytes "return"), TOKEN_RETURN⟩, ⟨some (bytes "class"), TOKEN_CLASS⟩,
    ⟨some (bytes "import"), TOKEN_IMPORT⟩, ⟨some (bytes "true"), TOKEN_TRUE⟩,
    ⟨some (bytes "false"), TOKEN_FALSE⟩, ⟨some (bytes "null"), TOKEN_NULL⟩,
    ⟨some (bytes "print"), TOKEN_PRINT⟩ ]

/-- The array `keywords[KEYWORD_COUNT]`: the initialisers, then value-initialised
entries (a null `word`; the zero enumerator, which is never read, stands as
`TOKEN_INT`) up to the declared size. -/
def keywords : List Keyword :=
  keyword_initialisers ++
    List.replicate (KEYWORD_COUNT - keyword_initialisers.length) ⟨none, TOKEN_INT⟩

/-- The loop of `lookup_keyword` over the entries still to visit.  Comparing a
lexeme with an entry whose `word` is null is undefined in the source (the
comparison reads through the null pointer, and the program is stopped by the
memory fault): `lookup_keyword_defined` tells whether a lookup reaches such an
entry.  For a lookup that does, the value computed here (the entry matches no
lexeme and the scan goes on) stands for no result of the source. -/
def lookup_keyword_loop (lexeme : List Nat) : List Keyword → TokenType
  | [] => TOKEN_IDENTIFIER
  | k :: ks => if k.word = some lexeme then k.type else lookup_keyword_loop lexeme ks

def lookup_keyword (lexeme : List Nat) : TokenType :=
  lookup_keyword_loop lexeme (keywords.take KEYWORD_COUNT)

/-- Whether the loop of `lookup_keyword` returns before it compares the lexeme
with an entry whose `word` is null, over the entries still to visit. -/
def lookup_keyword_defined_loop (lexeme : List Nat) : List Keyword → Bool
  | [] => true
  | k :: ks =>
    match k.word with
    | none => false
    | some word => if word = lexeme then true else lookup_keyword_defined_loop lexeme ks

/-- Whether the call `lookup_keyword(lexeme)` executes no undefined comparison,
that is, whether it returns in the source. -/
def lookup_keyword_defined (lexeme : List Nat) : Bool :=
  lookup_keyword_defined_loop lexeme (keywords.take KEYWORD_COUNT)

/-- The loop of `lex_identifier_or_keyword`; the `break` leaves the loop with the
cursor on the character that did not fit. -/
def lex_identifier_loop : Nat → List Nat → Lexer → List Nat × Lexer
  | 0, lexeme, lexer => (lexeme, lexer)
  | fuel + 1, lexeme, lexer =>
    if isalnum lexer.current_char ∨ lexer.current_char = 95 then
      if lexeme.length < MAX_LEXEME_LENGTH - 1 then
        lex_identifier_loop fuel (lexeme ++ [to_char lexer.current_char]) (lex_advance lexer)
      else (lexeme, lexer)
    else (lexeme, lexer)

def lex_identifier_or_keyword (lexer : Lexer) : Token × Lexer :=
  let start_column := lexer.column
  let l1 := lex_advance lexer
  let r := lex_identifier_loop (l1.file.length + 1) [to_char lexer.current_char] l1
  (create_token (lookup_keyword (c_string r.1)) (c_string r.1) r.2.line start_column, r.2)

/-- Whether the call `lex_identifier_or_keyword(lexer)` executes no undefined
operation: its stores stay inside the buffer, so this is whether the lookup of
its lexeme is defined. -/
def lex_identifier_or_keyword_defined (lexer : Lexer) : Bool :=
  lookup_keyword_defined
    (c_string (lex_identifier_loop ((lex_advance lexer).file.length + 1)
      [to_char lexer.current_char] (lex_advance lexer)).1)

/-- The loop of `lex_number`: a digit that does not fit is consumed and dropped. -/
def lex_number_loop : Nat → List Nat → Lexer → List Nat × Lexer
  | 0, lexeme, lexer => (lexeme, lexer)
  | fuel + 1, lexeme, lexer =>
    if isdigit lexer.current_char then
      lex_number_loop fuel
        (if lexeme.length < MAX_LEXEME_LENGTH - 1 then lexeme ++ [to_char lexer.current_char]
         else lexeme)
        (lex_advance lexer)
    else (lexeme, lexer)

def lex_number (lexer : Lexer) : Token × Lexer :=
  let start_column := lexer.column
  let r := lex_number_loop (lexer.file.length + 1) [] lexer
  (create_token TOKEN_INT (c_string r.1) r.2.line start_column, r.2)

/-- The `switch` of `lex_string` on the character after a backslash: the byte
that is stored. -/
def escape_byte (c : Int) : Nat :=
  if c = 110 then 10
  else if c = 116 then 9
  else if c = 114 then 13
  else if c = 98 then 8
  else if c = 102 then 12
  else if c = 48 then 0
  else if c = 34 then 34
  else if c = 92 then 92
  else to_char c

/-- The loop of `lex_string`.  The escape branch stores without a test of
`length`; the plain branch stores below `MAX_LEXEME_LENGTH - 1` and otherwise
breaks. -/
def lex_string_loop : Nat → List Nat → Lexer → List Nat × Lexer
  | 0, lexeme, lexer => (lexeme, lexer)
  | fuel + 1, lexeme, lexer =>
    if lexer.current_char ≠ 34 ∧ lexer.current_char ≠ EOF then
      if lexer.current_char = 92 then
        lex_string_loop fuel (lexeme ++ [escape_byte (lex_advance lexer).current_char])
          (lex_advance (lex_advance lexer))
      else if lexeme.length < MAX_LEXEME_LENGTH - 1 then
        lex_string_loop fuel (lexeme ++ [to_char lexer.current_char]) (lex_advance lexer)
      else (lexeme, lexer)
    else (lexeme, lexer)

def lex_string (lexer : Lexer) : Token × Lexer :=
  let start_column := lexer.column
  let l1 := lex_advance lexer
  let r := lex_string_loop (l1.file.length + 1) [] l1
  if r.2.current_char = 34 then
    let l2 := lex_advance r.2
    (create_token TOKEN_STRING_LITERAL (c_string r.1) l2.line start_column, l2)
  else
    (create_token TOKEN_ERROR (bytes "Unterminated string") r.2.line start_column, r.2)

/-- Whether the call `lex_string(lexer)` executes no undefined operation, that
is, whether every write goes inside the `MAX_LEXEME_LENGTH` bytes of the buffer:
the stores `lexeme[length++] = c` at the indices below the final `length`, and,
when the literal is closed, the terminator `lexeme[length] = 0`. -/
def lex_string_defined (lexer : Lexer) : Bool :=
  let l1 := lex_advance lexer
  let r := lex_string_loop (l1.file.length + 1) [] l1
  if r.2.current_char = 34 then decide (r.1.length < MAX_LEXEME_LENGTH)
  else decide (r.1.length ≤ MAX_LEXEME_LENGTH)

/-- The `switch` of `lex_next_token` on a character that starts no identifier,
number or string: the kind and the lexeme of the token. -/
def single_char_token (c : Int) : TokenType × List Nat :=
  if c = 43 then (TOKEN_PLUS, bytes "+")
  else if c = 45 then (TOKEN_MINUS, bytes "-")
  else if c = 42 then (TOKEN_ASTERISK, bytes "*")
  else if c = 47 then (TOKEN_SLASH, bytes "/")
  else if c = 37 then (TOKEN_PERCENT, bytes "%")
  else if c = 61 then (TOKEN_ASSIGN, bytes "=")
  else if c = 40 then (TOKEN_LPAREN, bytes "(")
  else if c = 41 then (TOKEN_RPAREN, bytes ")")
  else if c = 123 then (TOKEN_LBRACE, bytes "\x7b")
  else if c = 125 then (TOKEN_RBRACE, bytes "\x7d")
  else if c = 91 then (TOKEN_LBRACKET, bytes "[")
  else if c = 93 then (TOKEN_RBRACKET, bytes "]")
  else if c = 44 then (TOKEN_COMMA, bytes ",")
  else if c = 59 then (TOKEN_SEMICOLON, bytes ";")
  else (TOKEN_ERROR, bytes "Unknown")

/-- The part of `lex_next_token` after the comment test: the scanner for the
current character, which is not `EOF`. -/
def lex_dispatch (lexer : Lexer) : Token × Lexer :=
  let start_column := lexer.column
  if isalpha lexer.current_char ∨ lexer.current_char = 95 then lex_identifier_or_keyword lexer
  else if isdigit lexer.current_char then lex_number lexer
  else if lexer.current_char = 34 then lex_string lexer
  else
    let l1 := lex_advance lexer
    (create_token (single_char_token lexer.current_char).1
      (single_char_token lexer.current_char).2 l1.line start_column, l1)

/-- The test of `lex_next_token` for the start of a comment. -/
def at_comment (lexer : Lexer) : Bool :=
  lexer.current_char == 47 && (file_peek lexer.file == 47 || file_peek lexer.file == 42)

/-- The body of `lex_next_token` for a live lexer; the budget bounds the calls
that the function makes to itself after a comment. -/
def lex_next_token_loop : Nat → Lexer → Token × Lexer
  | 0, lexer =>
    let l1 := skip_whitespace lexer
    if l1.current_char = EOF then (create_token TOKEN_EOF (bytes "EOF") l1.line l1.column, l1)
    else lex_dispatch l1
  | fuel + 1, lexer =>
    let l1 := skip_whitespace lexer
    if l1.current_char = EOF then (create_token TOKEN_EOF (bytes "EOF") l1.line l1.column, l1)
    else if at_comment l1 then lex_next_token_loop fuel (skip_comments l1)
    else lex_dispatch l1

def lex_next_token (lexer : Lexer) : Token × Lexer :=
  lex_next_token_loop (lexer.file.length + 1) lexer

/-- Whether the scanner that `lex_dispatch` selects executes no undefined
operation. -/
def lex_dispatch_defined (lexer : Lexer) : Bool :=
  if isalpha lexer.current_char ∨ lexer.current_char = 95 then
    lex_identifier_or_keyword_defined lexer
  else if isdigit lexer.current_char then true
  else if lexer.current_char = 34 then lex_string_defined lexer
  else true

/-- Whether the call of `lex_next_token` executes no undefined operation, along
the path of `lex_next_token_loop`. -/
def lex_next_token_defined_loop : Nat → Lexer → Bool
  | 0, lexer =>
    let l1 := skip_whitespace lexer
    if l1.current_char = EOF then true else lex_dispatch_defined l1
  | fuel + 1, lexer =>
    let l1 := skip_whitespace lexer
    if l1.current_char = EOF then true
    else if at_comment l1 then lex_next_token_defined_loop fuel (skip_comments l1)
    else lex_dispatch_defined l1

/-- Whether the call `lex_next_token(lexer)` executes no undefined operation: no
comparison with a null keyword spelling and no write outside a lexeme buffer.
Where this is `true` the call returns `lex_next_token lexer`; where it is `false`
the source has no defined result and `lex_next_token lexer` stands for none. -/
def lex_next_token_defined (lexer : Lexer) : Bool :=
  lex_next_token_defined_loop (lexer.file.length + 1) lexer

/-- The lexer after `j` calls of `lex_next_token`. -/
def nth_lexer : Nat → Lexer → Lexer
  | 0, lexer => lexer
  | j + 1, lexer => nth_lexer j (lex_next_token lexer).2

/-- The token that call number `j + 1` of `lex_next_token` returns. -/
def nth_token (j : Nat) (lexer : Lexer) : Token :=
  (lex_next_token (nth_lexer j lexer)).1

/-- The number of bytes not yet consumed: the current character, when it is
not `EOF`, and the unread bytes of the stream. -/
def remaining (lexer : Lexer) : Nat :=
  lexer.file.length + (if lexer.current_char = EOF then 0 else 1)

/-- The fourteen punctuation characters, each with the kind that the `switch` of
`lex_next_token` gives it. -/
def punctuation : List (Nat × TokenType) :=
  [ (43, TOKEN_PLUS), (45, TOKEN_MINUS), (42, TOKEN_ASTERISK), (47, TOKEN_SLASH),
    (37, TOKEN_PERCENT), (61, TOKEN_ASSIGN), (40, TOKEN_LPAREN), (41, TOKEN_RPAREN),
    (123, TOKEN_LBRACE), (125, TOKEN_RBRACE), (91, TOKEN_LBRACKET), (93, TOKEN_RBRACKET),
    (44, TOKEN_COMMA), (59, TOKEN_SEMICOLON) ]

/-- The lexer has exactly the bytes `input` left to consume: its current
character and its unread stream are those that reading `input` from its first
byte gives. -/
def pending (lexer : Lexer) (input : List Nat) : Prop :=
  lexer.current_char = (file_get input).1 ∧ lexer.file = (file_get input).2

/-- The byte that the specification assigns to the character `c` after a
backslash: the eight named escapes, and `c` itself for any other character. -/
def spec_escape (c : Nat) : Nat :=
  if c = 110 then 10
  else if c = 116 then 9
  else if c = 114 then 13
  else if c = 98 then 8
  else if c = 102 then 12
  else if c = 48 then 0
  else if c = 34 then 34
  else if c = 92 then 92
  else c

/-- The decoded content of the text between the quotes of a closed literal, as
the specification describes it: an ordinary character is itself, a backslash and
the character after it give `spec_escape` of that character.  The result is
`none` when the text holds an unescaped quote or ends with a lone backslash,
that is, when it is not the body of a closed literal. -/
def spec_decode : List Nat → Option (List Nat)
  | [] => some []
  | c :: rest =>
    if c = 92 then
      match rest with
      | [] => none
      | e :: rest' => (spec_decode rest').map (fun d => spec_escape e :: d)
    else if c = 34 then none
    else (spec_decode rest).map (fun d => c :: d)

/-- The number of bytes that the content of a literal left open decodes to (an
ordinary character and a backslash pair count one each, a lone backslash at the
very end counts nothing), or `none` when the text holds an unescaped quote, that
is, when the literal is closed. -/
def spec_open_length : List Nat → Option Nat
  | [] => some 0
  | c :: rest =>
    if c = 92 then
      match rest with
      | [] => some 0
      | _ :: rest' => (spec_open_length rest').map (fun k => k + 1)
    else if c = 34 then none
    else (spec_open_length rest).map (fun k => k + 1)

/-- A character that may start an identifier: a letter or an underscore. -/
def is_identifier_start (c : Int) : Bool := isalpha c || c == 95

/-- A character that may continue an identifier: a letter, a digit or an
underscore. -/
def is_identifier_part (c : Int) : Bool := isalnum c || c == 95

/-- An identifier-shaped word, in the specification's terms: the first
character is a letter or an underscore, the others are letters, digits or
underscores, and there are at most `MAX_LEXEME_LENGTH - 1` characters. -/
def identifier_shaped : List Nat → Bool
  | [] => false
  | c :: rest =>
    is_identifier_start (c : Int) && rest.all (fun d => is_identifier_part (d : Int)) &&
      decide ((c :: rest).length ≤ MAX_LEXEME_LENGTH - 1)

/-- The seventeen reserved spellings of the specification, each with its kind. -/
def reserved_words : List (List Nat × TokenType) :=
  [ (bytes "int", TOKEN_INT), (bytes "str", TOKEN_STR), (bytes "bool", TOKEN_BOOL),
    (bytes "let", TOKEN_LET), (bytes "const", TOKEN_CONST), (bytes "function", TOKEN_FUNCTION),
    (bytes "if", TOKEN_IF), (bytes "else", TOKEN_ELSE), (bytes "for", TOKEN_FOR),
    (bytes "while", TOKEN_WHILE), (bytes "return", TOKEN_RETURN), (bytes "class", TOKEN_CLASS),
    (bytes "import", TOKEN_IMPORT), (bytes "true", TOKEN_TRUE), (bytes "false", TOKEN_FALSE),
    (bytes "null", TOKEN_NULL), (bytes "print", TOKEN_PRINT) ]

/-- The kind that the specification gives a completed identifier lexeme: the
kind of the reserved spelling that it equals, and `TOKEN_IDENTIFIER` when it
equals none. -/
def spec_keyword_kind (w : List Nat) : TokenType :=
  (reserved_words.lookup w).getD TOKEN_IDENTIFIER

/-- The two globals of the pushback facility: the array `unget_buffer` of
`MAX_UNGET_TOKENS` token pointers (`none` is a null pointer) and the count
`unget_buffer_index`. -/
structure UngetState where
  unget_buffer : List (Option Token)
  unget_buffer_index : Nat
  deriving DecidableEq, Repr

/-- The globals at program start, zero-initialised: every slot null, index 0. -/
def unget_initial : UngetState :=
  { unget_buffer := List.replicate MAX_UNGET_TOKENS none, unget_buffer_index := 0 }

/-- The function `lex_unget_token`; its `lexer` argument is not used. -/
def lex_unget_token (_lexer : Lexer) (token : Token) (s : UngetState) : UngetState :=
  if s.unget_buffer_index < MAX_UNGET_TOKENS then
    { unget_buffer := s.unget_buffer.set s.unget_buffer_index (some token)
      unget_buffer_index := s.unget_buffer_index + 1 }
  else s

/-- The entries of the table that the loop of `lookup_keyword` compares with the
lexeme, in order: every entry up to the first one that matches. -/
def lookup_keyword_compared (lexeme : List Nat) : List Keyword → List Keyword
  | [] => []
  | k :: ks =>
    if k.word = some lexeme then [k] else k :: lookup_keyword_compared lexeme ks

/-- An object that a `delete` expression of `destroy_lexer` can release: the
`Lexer` record, or the stream that `create_lexer` received by reference and
whose address it stored in `lexer->file`. -/
inductive Object where
  | lexer_record
  | borrowed_file
  deriving DecidableEq, Repr

/-- The function `destroy_lexer`, as the list of the objects it deletes, in
order; `none` is a null `lexer`. -/
def destroy_lexer (lexer : Option Lexer) : List Object :=
  match lexer with
  | none => []
  | some _ => [Object.borrowed_file, Object.lexer_record]

/-- The 1-based line of the character that follows the text `pre` in a source:
one more than the number of line feeds in `pre`. -/
def spec_line (pre : List Nat) : Nat := 1 + pre.count 10

/-- The 1-based column of the character that follows the text `pre` in a source:
one more than the number of characters of `pre` after its last line feed. -/
def spec_column (pre : List Nat) : Nat :=
  1 + (pre.reverse.takeWhile (fun b => b ≠ 10)).length

/-! # Theorems -/

/-! ## The cursor -/

theorem cast_ne_EOF (b : Nat) : (b : Int) ≠ EOF := by
  unfold EOF; omega

theorem isspace_EOF : isspace EOF = false := by decide
theorem isdigit_EOF : isdigit EOF = false := by decide
theorem isalpha_EOF : isalpha EOF = false := by decide
theorem isalnum_EOF : isalnum EOF = false := by decide

theorem remaining_advance (lexer : Lexer) : remaining (lex_advance lexer) = lexer.file.length := by
  cases hf : lexer.file with
  | nil => simp [remaining, lex_advance, hf, file_get]
  | cons b r => simp [remaining, lex_advance, hf, file_get, cast_ne_EOF]

theorem remaining_advance_le (lexer : Lexer) : remaining (lex_advance lexer) ≤ remaining lexer := by
  rw [remaining_advance]; unfold remaining; omega

theorem remaining_advance_lt (lexer : Lexer) (h : lexer.current_char ≠ EOF) :
    remaining (lex_advance lexer) < remaining lexer := by
  rw [remaining_advance]; simp [remaining, h]

theorem remaining_le_length (lexer : Lexer) : remaining lexer ≤ lexer.file.length + 1 := by
  unfold remaining; split <;> omega

theorem remaining_zero (lexer : Lexer) (h : remaining lexer ≤ 0) : lexer.current_char = EOF := by
  unfold remaining at h
  by_contra hc
  simp [hc] at h

theorem remaining_create_lexer (file : List Nat) : remaining (create_lexer file) = file.length := by
  cases file with
  | nil => simp [remaining, create_lexer, file_get]
  | cons b r => simp [remaining, create_lexer, file_get, cast_ne_EOF]

/-! ## The loops do not depend on the budget -/

theorem skip_whitespace_loop_fuel (f1 f2 : Nat) (lexer : Lexer)
    (h1 : remaining lexer ≤ f1) (h2 : remaining lexer ≤ f2) :
    skip_whitespace_loop f1 lexer = skip_whitespace_loop f2 lexer := by
  induction f1 generalizing f2 lexer with
  | zero =>
    have hc := remaining_zero lexer h1
    cases f2 <;> simp [skip_whitespace_loop, hc, isspace_EOF]
  | succ n ih =>
    cases f2 with
    | zero =>
      have hc := remaining_zero lexer h2
      simp [skip_whitespace_loop, hc, isspace_EOF]
    | succ m =>
      simp only [skip_whitespace_loop]
      split
      · next hs =>
        have hne : lexer.current_char ≠ EOF := by
          intro he; rw [he, isspace_EOF] at hs; exact absurd hs (by decide)
        have := remaining_advance_lt lexer hne
        exact ih m _ (by omega) (by omega)
      · rfl

theorem skip_line_loop_fuel (f1 f2 : Nat) (lexer : Lexer)
    (h1 : remaining lexer ≤ f1) (h2 : remaining lexer ≤ f2) :
    skip_line_loop f1 lexer = skip_line_loop f2 lexer := by
  induction f1 generalizing f2 lexer with
  | zero =>
    have hc := remaining_zero lexer h1
    cases f2 <;> simp [skip_line_loop, hc]
  | succ n ih =>
    cases f2 with
    | zero =>
      have hc := remaining_zero lexer h2
      simp [skip_line_loop, hc]
    | succ m =>
      simp only [skip_line_loop]
      split
      · next hs =>
        have := remaining_advance_lt lexer hs.2
        exact ih m _ (by omega) (by omega)
      · rfl

theorem skip_block_loop_fuel (f1 f2 : Nat) (lexer : Lexer)
    (h1 : remaining lexer ≤ f1) (h2 : remaining lexer ≤ f2) :
    skip_block_loop f1 lexer = skip_block_loop f2 lexer := by
  induction f1 generalizing f2 lexer with
  | zero =>
    have hc := remaining_zero lexer h1
    cases f2 <;> simp [skip_block_loop, hc]
  | succ n ih =>
    cases f2 with
    | zero =>
      have hc := remaining_zero lexer h2
      simp [skip_block_loop, hc]
    | succ m =>
      simp only [skip_block_loop]
      split
      · next hs =>
        have := remaining_advance_lt lexer hs
        split
        · split
          · rfl
          · exact ih m _ (by omega) (by omega)
        · exact ih m _ (by omega) (by omega)
      · rfl

theorem lex_identifier_loop_fuel (f1 f2 : Nat) (lexeme : List Nat) (lexer : Lexer)
    (h1 : remaining lexer ≤ f1) (h2 : remaining lexer ≤ f2) :
    lex_identifier_loop f1 lexeme lexer = lex_identifier_loop f2 lexeme lexer := by
  induction f1 generalizing f2 lexeme lexer with
  | zero =>
    have hc := remaining_zero lexer h1
    cases f2 <;> simp [lex_identifier_loop, hc, EOF, show isalnum (-1 : Int) = false by decide]
  | succ n ih =>
    cases f2 with
    | zero =>
      have hc := remaining_zero lexer h2
      simp [lex_identifier_loop, hc, EOF, show isalnum (-1 : Int) = false by decide]
    | succ m =>
      simp only [lex_identifier_loop]
      split
      · next hs =>
        have hne : lexer.current_char ≠ EOF := by
          intro he; rw [he] at hs; revert hs; decide
        have := remaining_advance_lt lexer hne
        split
        · exact ih m _ _ (by omega) (by omega)
        · rfl
      · rfl

theorem lex_number_loop_fuel (f1 f2 : Nat) (lexeme : List Nat) (lexer : Lexer)
    (h1 : remaining lexer ≤ f1) (h2 : remaining lexer ≤ f2) :
    lex_number_loop f1 lexeme lexer = lex_number_loop f2 lexeme lexer := by
  induction f1 generalizing f2 lexeme lexer with
  | zero =>
    have hc := remaining_zero lexer h1
    cases f2 <;> simp [lex_number_loop, hc, isdigit_EOF]
  | succ n ih =>
    cases f2 with
    | zero =>
      have hc := remaining_zero lexer h2
      simp [lex_number_loop, hc, isdigit_EOF]
    | succ m =>
      simp only [lex_number_loop]
      split
      · next hs =>
        have hne : lexer.current_char ≠ EOF := by
          intro he; rw [he] at hs; revert hs; decide
        have := remaining_advance_lt lexer hne
        exact ih m _ _ (by omega) (by omega)
      · rfl

theorem lex_string_loop_fuel (f1 f2 : Nat) (lexeme : List Nat) (lexer : Lexer)
    (h1 : remaining lexer ≤ f1) (h2 : remaining lexer ≤ f2) :
    lex_string_loop f1 lexeme lexer = lex_string_loop f2 lexeme lexer := by
  induction f1 generalizing f2 lexeme lexer with
  | zero =>
    have hc := remaining_zero lexer h1
    cases f2 <;> simp [lex_string_loop, hc]
  | succ n ih =>
    cases f2 with
    | zero =>
      have hc := remaining_zero lexer h2
      simp [lex_string_loop, hc]
    | succ m =>
      simp only [lex_string_loop]
      split
      · next hs =>
        have := remaining_advance_lt lexer hs.2
        have := remaining_advance_le (lex_advance lexer)
        split
        · exact ih m _ _ (by omega) (by omega)
        · split
          · exact ih m _ _ (by omega) (by omega)
          · rfl
      · rfl

theorem skip_whitespace_eq (lexer : Lexer) :
    skip_whitespace lexer =
      if isspace lexer.current_char then skip_whitespace (lex_advance lexer) else lexer := by
  unfold skip_whitespace
  simp only [skip_whitespace_loop]
  split
  · next hs =>
    have hne : lexer.current_char ≠ EOF := by
      intro he; rw [he, isspace_EOF] at hs; exact absurd hs (by decide)
    exact skip_whitespace_loop_fuel _ _ _ (le_of_eq (remaining_advance lexer))
      (remaining_le_length _)
  · rfl


theorem remaining_skip_whitespace_loop (f : Nat) (lexer : Lexer) :
    remaining (skip_whitespace_loop f lexer) ≤ remaining lexer := by
  induction f generalizing lexer with
  | zero => exact le_refl _
  | succ n ih =>
    simp only [skip_whitespace_loop]
    split
    · exact le_trans (ih _) (remaining_advance_le lexer)
    · exact le_refl _

theorem remaining_skip_whitespace (lexer : Lexer) :
    remaining (skip_whitespace lexer) ≤ remaining lexer :=
  remaining_skip_whitespace_loop _ lexer

theorem remaining_skip_line_loop (f : Nat) (lexer : Lexer) :
    remaining (skip_line_loop f lexer) ≤ remaining lexer := by
  induction f generalizing lexer with
  | zero => exact le_refl _
  | succ n ih =>
    simp only [skip_line_loop]
    split
    · exact le_trans (ih _) (remaining_advance_le lexer)
    · exact le_refl _

theorem remaining_skip_block_loop (f : Nat) (lexer : Lexer) :
    remaining (skip_block_loop f lexer) ≤ remaining lexer := by
  induction f generalizing lexer with
  | zero => exact le_refl _
  | succ n ih =>
    simp only [skip_block_loop]
    split
    · split
      · split
        · exact le_trans (remaining_advance_le _) (remaining_advance_le lexer)
        · exact le_trans (ih _) (remaining_advance_le lexer)
      · exact le_trans (ih _) (remaining_advance_le lexer)
    · exact le_refl _

theorem at_comment_current (lexer : Lexer) (h : at_comment lexer = true) :
    lexer.current_char = 47 := by
  simp [at_comment] at h
  exact h.1

theorem remaining_skip_comments (lexer : Lexer) (h : at_comment lexer = true) :
    remaining (skip_comments lexer) < remaining lexer := by
  have hc := at_comment_current lexer h
  have hne : lexer.current_char ≠ EOF := by rw [hc]; decide
  have h1 := remaining_advance_lt lexer hne
  unfold skip_comments
  simp only [hc, if_true]
  split
  · split
    · exact lt_of_le_of_lt (le_trans (remaining_advance_le _) (remaining_skip_line_loop _ _)) h1
    · exact lt_of_le_of_lt (remaining_skip_line_loop _ _) h1
  · split
    · exact lt_of_le_of_lt (le_trans (remaining_skip_block_loop _ _) (remaining_advance_le _)) h1
    · exact h1

theorem remaining_lex_identifier_loop (f : Nat) (lexeme : List Nat) (lexer : Lexer) :
    remaining (lex_identifier_loop f lexeme lexer).2 ≤ remaining lexer := by
  induction f generalizing lexeme lexer with
  | zero => exact le_refl _
  | succ n ih =>
    simp only [lex_identifier_loop]
    split
    · split
      · exact le_trans (ih _ _) (remaining_advance_le lexer)
      · exact le_refl _
    · exact le_refl _

theorem remaining_lex_number_loop (f : Nat) (lexeme : List Nat) (lexer : Lexer) :
    remaining (lex_number_loop f lexeme lexer).2 ≤ remaining lexer := by
  induction f generalizing lexeme lexer with
  | zero => exact le_refl _
  | succ n ih =>
    simp only [lex_number_loop]
    split
    · exact le_trans (ih _ _) (remaining_advance_le lexer)
    · exact le_refl _

theorem remaining_lex_string_loop (f : Nat) (lexeme : List Nat) (lexer : Lexer) :
    remaining (lex_string_loop f lexeme lexer).2 ≤ remaining lexer := by
  induction f generalizing lexeme lexer with
  | zero => exact le_refl _
  | succ n ih =>
    simp only [lex_string_loop]
    split
    · split
      · exact le_trans (ih _ _) (le_trans (remaining_advance_le _) (remaining_advance_le lexer))
      · split
        · exact le_trans (ih _ _) (remaining_advance_le lexer)
        · exact le_refl _
    · exact le_refl _

theorem remaining_lex_dispatch (lexer : Lexer) (h : lexer.current_char ≠ EOF) :
    remaining (lex_dispatch lexer).2 < remaining lexer := by
  have h1 := remaining_advance_lt lexer h
  unfold lex_dispatch
  simp only
  split
  · exact lt_of_le_of_lt (remaining_lex_identifier_loop _ _ _) h1
  · split
    · next hd =>
      simp only [lex_number, lex_number_loop, hd, if_true]
      exact lt_of_le_of_lt (remaining_lex_number_loop _ _ _) h1
    · split
      · simp only [lex_string]
        split
        · exact lt_of_le_of_lt
            (le_trans (remaining_advance_le _) (remaining_lex_string_loop _ _ _)) h1
        · exact lt_of_le_of_lt (remaining_lex_string_loop _ _ _) h1
      · exact h1


theorem remaining_lex_next_token_loop (f : Nat) (lexer : Lexer) :
    remaining (lex_next_token_loop f lexer).2 ≤ remaining lexer ∧
    ((lex_next_token_loop f lexer).1.type ≠ TOKEN_EOF →
      remaining (lex_next_token_loop f lexer).2 < remaining lexer) := by
  induction f generalizing lexer with
  | zero =>
    simp only [lex_next_token_loop]
    have hw := remaining_skip_whitespace lexer
    split
    · exact ⟨hw, fun h => absurd rfl h⟩
    · next hc =>
      have := remaining_lex_dispatch _ hc
      exact ⟨by omega, fun _ => by omega⟩
  | succ n ih =>
    simp only [lex_next_token_loop]
    have hw := remaining_skip_whitespace lexer
    split
    · exact ⟨hw, fun h => absurd rfl h⟩
    · next hc =>
      split
      · next hcm =>
        have h1 := remaining_skip_comments _ hcm
        have h2 := (ih (skip_comments (skip_whitespace lexer))).1
        exact ⟨by omega, fun _ => by omega⟩
      · have := remaining_lex_dispatch _ hc
        exact ⟨by omega, fun _ => by omega⟩

theorem lex_next_token_loop_fuel (f1 f2 : Nat) (lexer : Lexer)
    (h1 : remaining lexer ≤ f1) (h2 : remaining lexer ≤ f2) :
    lex_next_token_loop f1 lexer = lex_next_token_loop f2 lexer := by
  induction f1 generalizing f2 lexer with
  | zero =>
    have hc := remaining_zero _ (le_trans (remaining_skip_whitespace lexer) h1)
    cases f2 <;> simp [lex_next_token_loop, hc]
  | succ n ih =>
    cases f2 with
    | zero =>
      have hc := remaining_zero _ (le_trans (remaining_skip_whitespace lexer) h2)
      simp [lex_next_token_loop, hc]
    | succ m =>
      simp only [lex_next_token_loop]
      split
      · rfl
      · split
        · next hcm =>
          have h3 := remaining_skip_comments _ hcm
          have h4 := remaining_skip_whitespace lexer
          exact ih m _ (by omega) (by omega)
        · rfl

/-- The equation of `lex_next_token`: skip whitespace; at end of input return
the end-of-input token; at a comment skip it and start again; otherwise scan. -/
theorem lex_next_token_eq (lexer : Lexer) :
    lex_next_token lexer =
      if (skip_whitespace lexer).current_char = EOF then
        (create_token TOKEN_EOF (bytes "EOF") (skip_whitespace lexer).line
          (skip_whitespace lexer).column, skip_whitespace lexer)
      else if at_comment (skip_whitespace lexer) then
        lex_next_token (skip_comments (skip_whitespace lexer))
      else lex_dispatch (skip_whitespace lexer) := by
  unfold lex_next_token
  simp only [lex_next_token_loop]
  split
  · rfl
  · split
    · next hcm =>
      have h3 := remaining_skip_comments _ hcm
      have h4 := remaining_skip_whitespace lexer
      have h5 := remaining_le_length lexer
      exact lex_next_token_loop_fuel _ _ _ (by omega) (remaining_le_length _)
    · rfl

theorem lex_next_token_defined_loop_fuel (f1 f2 : Nat) (lexer : Lexer)
    (h1 : remaining lexer ≤ f1) (h2 : remaining lexer ≤ f2) :
    lex_next_token_defined_loop f1 lexer = lex_next_token_defined_loop f2 lexer := by
  induction f1 generalizing f2 lexer with
  | zero =>
    have hc := remaining_zero _ (le_trans (remaining_skip_whitespace lexer) h1)
    cases f2 <;> simp [lex_next_token_defined_loop, hc]
  | succ n ih =>
    cases f2 with
    | zero =>
      have hc := remaining_zero _ (le_trans (remaining_skip_whitespace lexer) h2)
      simp [lex_next_token_defined_loop, hc]
    | succ m =>
      simp only [lex_next_token_defined_loop]
      split
      · rfl
      · split
        · next hcm =>
          have h3 := remaining_skip_comments _ hcm
          have h4 := remaining_skip_whitespace lexer
          exact ih m _ (by omega) (by omega)
        · rfl

/-- The equation of `lex_next_token_defined`, along that of `lex_next_token`. -/
theorem lex_next_token_defined_eq (lexer : Lexer) :
    lex_next_token_defined lexer =
      if (skip_whitespace lexer).current_char = EOF then true
      else if at_comment (skip_whitespace lexer) then
        lex_next_token_defined (skip_comments (skip_whitespace lexer))
      else lex_dispatch_defined (skip_whitespace lexer) := by
  unfold lex_next_token_defined
  simp only [lex_next_token_defined_loop]
  split
  · rfl
  · split
    · next hcm =>
      have h3 := remaining_skip_comments _ hcm
      have h4 := remaining_skip_whitespace lexer
      have h5 := remaining_le_length lexer
      exact lex_next_token_defined_loop_fuel _ _ _ (by omega) (remaining_le_length _)
    · rfl

theorem remaining_lex_next_token (lexer : Lexer) :
    remaining (lex_next_token lexer).2 ≤ remaining lexer :=
  (remaining_lex_next_token_loop _ lexer).1

theorem remaining_lex_next_token_lt (lexer : Lexer)
    (h : (lex_next_token lexer).1.type ≠ TOKEN_EOF) :
    remaining (lex_next_token lexer).2 < remaining lexer :=
  (remaining_lex_next_token_loop _ lexer).2 h

/-! ## Reaching end of input -/

theorem reaches_eof_from (n : Nat) (lexer : Lexer) (h : remaining lexer ≤ n) :
    ∃ k, k ≤ n ∧
      (∀ j, j < k → (nth_token j lexer).type ≠ TOKEN_EOF ∧
        remaining (nth_lexer (j + 1) lexer) < remaining (nth_lexer j lexer)) ∧
      (nth_token k lexer).type = TOKEN_EOF := by
  induction n generalizing lexer with
  | zero =>
    refine ⟨0, le_refl _, fun j hj => absurd hj (Nat.not_lt_zero j), ?_⟩
    by_contra hne
    have := remaining_lex_next_token_lt lexer hne
    omega
  | succ n ih =>
    by_cases he : (lex_next_token lexer).1.type = TOKEN_EOF
    · exact ⟨0, Nat.zero_le _, fun j hj => absurd hj (Nat.not_lt_zero j), he⟩
    · have hlt := remaining_lex_next_token_lt lexer he
      obtain ⟨k, hk, hbefore, hat⟩ := ih (lex_next_token lexer).2 (by omega)
      refine ⟨k + 1, by omega, ?_, hat⟩
      intro j hj
      cases j with
      | zero => exact ⟨he, hlt⟩
      | succ i => exact hbefore i (by omega)

/-- Progress of the scanner as far as its calls are defined: on an input of `n`
bytes there is `k ≤ n` such that each of the first `k` tokens computed is not
`TOKEN_EOF` and leaves fewer bytes unconsumed than it found, and token `k + 1` is
a `TOKEN_EOF` token.  A call that is not defined (`lex_next_token_defined`)
returns nothing in the source, and the sequence of the source stops there. -/
theorem lex_next_token_progress (input : List Nat) :
    ∃ k, k ≤ input.length ∧
      (∀ j, j < k → (nth_token j (create_lexer input)).type ≠ TOKEN_EOF ∧
        remaining (nth_lexer (j + 1) (create_lexer input))
          < remaining (nth_lexer j (create_lexer input))) ∧
      (nth_token k (create_lexer input)).type = TOKEN_EOF :=
  reaches_eof_from input.length (create_lexer input) (le_of_eq (remaining_create_lexer input))

/-! ## Positions, bounds and punctuation on concrete inputs -/

set_option maxRecDepth 1000000

/-- C2: the string literal that opens at line 1, column 1 and holds a line break
gets line 2, the line of its closing quote, paired with the column of its
opening quote. -/
theorem string_token_line_is_closing_line :
    (create_lexer (bytes "\"a\nb\"")).current_char = 34 ∧
    (create_lexer (bytes "\"a\nb\"")).line = 1 ∧
    (create_lexer (bytes "\"a\nb\"")).column = 1 ∧
    (lex_next_token (create_lexer (bytes "\"a\nb\""))).1
      = ⟨TOKEN_STRING_LITERAL, bytes "a\nb", 2, 1⟩ := by
  decide

/-- C3: a literal of 256 escape sequences makes `lex_string` store 256 bytes:
the string token carries a lexeme of length 256, one more than
`MAX_LEXEME_LENGTH - 1`. -/
theorem lex_string_escapes_overflow :
    (lex_next_token (create_lexer
      (34 :: (List.replicate 256 [92, 110]).flatten ++ [34]))).1.type = TOKEN_STRING_LITERAL ∧
    (lex_next_token (create_lexer
      (34 :: (List.replicate 256 [92, 110]).flatten ++ [34]))).1.lexeme.length
        = MAX_LEXEME_LENGTH := by
  decide

/-- C1: on the one-byte input `x` the first call of `lex_next_token` scans the
lexeme `x` and looks it up; `x` equals none of the seventeen spellings, so the
lookup goes on to entry 17 of the table, whose spelling is null, and the call is
undefined: no token is returned and no `TOKEN_EOF` token is reached. -/
theorem identifier_input_undefined :
    (lex_identifier_loop ((lex_advance (create_lexer (bytes "x"))).file.length + 1)
      [to_char (create_lexer (bytes "x")).current_char]
      (lex_advance (create_lexer (bytes "x")))).1 = bytes "x" ∧
    (keywords.take KEYWORD_COUNT)[17]? = some ⟨none, TOKEN_INT⟩ ∧
    lookup_keyword_defined (bytes "x") = false ∧
    lex_next_token_defined (create_lexer (bytes "x")) = false := by
  decide

/-- On the literal of 256 escape sequences the call is not defined: the
terminator is written at index 256 of the buffer. -/
theorem lex_string_escapes_undefined :
    lex_next_token_defined (create_lexer
      (34 :: (List.replicate 256 [92, 110]).flatten ++ [34])) = false := by
  decide

/-- C6: on a run of 256 letters `a` the loop of `lex_identifier_or_keyword`
stores 255 letters and breaks with the cursor on the 256th letter, which it has
not consumed; the lookup of the 255-letter lexeme then runs into the keyword
entries without a spelling, so the call is undefined and returns no token. -/
theorem long_identifier_left_unread :
    (lex_identifier_loop ((lex_advance (create_lexer (List.replicate 256 97))).file.length + 1)
      [to_char (create_lexer (List.replicate 256 97)).current_char]
      (lex_advance (create_lexer (List.replicate 256 97)))).1 = List.replicate 255 97 ∧
    (lex_identifier_loop ((lex_advance (create_lexer (List.replicate 256 97))).file.length + 1)
      [to_char (create_lexer (List.replicate 256 97)).current_char]
      (lex_advance (create_lexer (List.replicate 256 97)))).2.current_char = 97 ∧
    (lex_identifier_loop ((lex_advance (create_lexer (List.replicate 256 97))).file.length + 1)
      [to_char (create_lexer (List.replicate 256 97)).current_char]
      (lex_advance (create_lexer (List.replicate 256 97)))).2.file = [] ∧
    lookup_keyword_defined (List.replicate 255 97) = false ∧
    lex_next_token_defined (create_lexer (List.replicate 256 97)) = false := by
  decide

/-- C8: each of the fourteen characters `+ - * / % = ( ) { } [ ] , ;`, lexed
alone, gives one token of its punctuation kind whose lexeme is that character, at
line 1, column 1, and the next call returns a `TOKEN_EOF` token. -/
theorem punctuation_alone :
    punctuation.map Prod.fst = bytes "+-*/%=()\x7b\x7d[],;" ∧
    ∀ p ∈ punctuation,
      nth_token 0 (create_lexer [p.1]) = ⟨p.2, [p.1], 1, 1⟩ ∧
      (nth_token 1 (create_lexer [p.1])).type = TOKEN_EOF := by
  decide


/-! ## End of input -/

theorem lookup_keyword_loop_ne_eof (lexeme : List Nat) (ks : List Keyword)
    (h : ∀ k ∈ ks, k.type ≠ TOKEN_EOF) : lookup_keyword_loop lexeme ks ≠ TOKEN_EOF := by
  induction ks with
  | nil => simp [lookup_keyword_loop]
  | cons k ks ih =>
    simp only [lookup_keyword_loop]
    split
    · exact h k (List.mem_cons_self _ _)
    · exact ih (fun k' hk' => h k' (List.mem_cons_of_mem _ hk'))

theorem lookup_keyword_ne_eof (lexeme : List Nat) : lookup_keyword lexeme ≠ TOKEN_EOF :=
  lookup_keyword_loop_ne_eof lexeme _ (by decide)

theorem ite_fst_ne_eof (c : Prop) [Decidable c] (p q : TokenType × List Nat)
    (hp : p.1 ≠ TOKEN_EOF) (hq : q.1 ≠ TOKEN_EOF) : (if c then p else q).1 ≠ TOKEN_EOF := by
  split <;> assumption

theorem single_char_token_ne_eof (c : Int) : (single_char_token c).1 ≠ TOKEN_EOF := by
  unfold single_char_token
  repeat' apply ite_fst_ne_eof
  all_goals exact fun h => TokenType.noConfusion h

theorem lex_dispatch_ne_eof (lexer : Lexer) : (lex_dispatch lexer).1.type ≠ TOKEN_EOF := by
  unfold lex_dispatch
  simp only
  split
  · exact lookup_keyword_ne_eof _
  · split
    · simp [lex_number, create_token]
    · split
      · simp only [lex_string]
        split <;> simp [create_token]
      · exact single_char_token_ne_eof _

theorem lex_next_token_loop_eof (f : Nat) (lexer : Lexer)
    (h : (lex_next_token_loop f lexer).1.type = TOKEN_EOF) :
    (lex_next_token_loop f lexer).2.current_char = EOF ∧
    (lex_next_token_loop f lexer).1 =
      create_token TOKEN_EOF (bytes "EOF") (lex_next_token_loop f lexer).2.line
        (lex_next_token_loop f lexer).2.column := by
  induction f generalizing lexer with
  | zero =>
    simp only [lex_next_token_loop] at h ⊢
    split
    · next hc => exact ⟨hc, rfl⟩
    · next hc =>
      rw [if_neg hc] at h
      exact absurd h (lex_dispatch_ne_eof _)
  | succ n ih =>
    simp only [lex_next_token_loop] at h ⊢
    split
    · next hc => exact ⟨hc, rfl⟩
    · next hc =>
      rw [if_neg hc] at h
      split
      · next hcm =>
        rw [if_pos hcm] at h
        exact ih _ h
      · next hcm =>
        rw [if_neg hcm] at h
        exact absurd h (lex_dispatch_ne_eof _)

theorem lex_next_token_at_eof (lexer : Lexer) (h : lexer.current_char = EOF) :
    lex_next_token lexer =
      (create_token TOKEN_EOF (bytes "EOF") lexer.line lexer.column, lexer) := by
  have hw : skip_whitespace lexer = lexer := by
    rw [skip_whitespace_eq, h, isspace_EOF]; rfl
  rw [lex_next_token_eq, hw, if_pos h]

theorem lex_next_token_after_eof (lexer : Lexer)
    (h : (lex_next_token lexer).1.type = TOKEN_EOF) :
    lex_next_token (lex_next_token lexer).2 = lex_next_token lexer := by
  obtain ⟨hc, htok⟩ := lex_next_token_loop_eof _ lexer h
  have h2 := lex_next_token_at_eof (lex_next_token lexer).2 hc
  rw [h2]
  exact Prod.ext htok.symm rfl

theorem nth_lexer_succ (j : Nat) (lexer : Lexer) :
    nth_lexer (j + 1) lexer = (lex_next_token (nth_lexer j lexer)).2 := by
  induction j generalizing lexer with
  | zero => rfl
  | succ n ih => exact ih (lex_next_token lexer).2

/-- C7: once call `k + 1` of `lex_next_token` has returned a `TOKEN_EOF` token,
every later call returns the same token (kind, lexeme, line and column) and
leaves the lexer as it found it. -/
theorem lex_next_token_eof_idempotent (lexer : Lexer) (k m : Nat)
    (h : (nth_token k lexer).type = TOKEN_EOF) (hm : k < m) :
    nth_token m lexer = nth_token k lexer ∧ nth_lexer (m + 1) lexer = nth_lexer m lexer := by
  have key : ∀ d, lex_next_token (nth_lexer (k + 1 + d) lexer) = lex_next_token (nth_lexer k lexer) ∧
      (lex_next_token (nth_lexer (k + 1 + d) lexer)).2 = nth_lexer (k + 1 + d) lexer := by
    intro d
    induction d with
    | zero =>
      have h1 := lex_next_token_after_eof (nth_lexer k lexer) h
      rw [Nat.add_zero, nth_lexer_succ]
      exact ⟨h1, by rw [h1]⟩
    | succ d ih =>
      have e : nth_lexer (k + 1 + (d + 1)) lexer = nth_lexer (k + 1 + d) lexer := by
        rw [← Nat.add_assoc, nth_lexer_succ, ih.2]
      rw [e]
      exact ih
  obtain ⟨d, rfl⟩ : ∃ d, m = k + 1 + d := ⟨m - (k + 1), by omega⟩
  refine ⟨?_, ?_⟩
  · unfold nth_token; rw [(key d).1]
  · rw [nth_lexer_succ]; exact (key d).2

/-- The witness of C7: the input `1` followed by a space, calls 2 and 4. -/
theorem lex_next_token_eof_idempotent_witness :
    (nth_token 1 (create_lexer (bytes "1 "))).type = TOKEN_EOF ∧ 1 < 3 ∧
    nth_token 3 (create_lexer (bytes "1 ")) = nth_token 1 (create_lexer (bytes "1 ")) ∧
    nth_lexer 4 (create_lexer (bytes "1 ")) = nth_lexer 3 (create_lexer (bytes "1 ")) :=
  ⟨by decide, by decide,
    lex_next_token_eof_idempotent (create_lexer (bytes "1 ")) 1 3 (by decide) (by decide)⟩

/-! ## String literals -/

theorem pending_create_lexer (input : List Nat) : pending (create_lexer input) input :=
  ⟨rfl, rfl⟩

theorem pending_cons (lexer : Lexer) (b : Nat) (r : List Nat) (h : pending lexer (b :: r)) :
    lexer.current_char = (b : Int) ∧ pending (lex_advance lexer) r := by
  obtain ⟨h1, h2⟩ := h
  refine ⟨h1, ?_, ?_⟩ <;> simp [lex_advance, h2, file_get]

theorem pending_of (lexer : Lexer) (b : Nat) (r : List Nat)
    (h1 : lexer.current_char = (b : Int)) (h2 : lexer.file = r) : pending lexer (b :: r) :=
  ⟨h1, h2⟩

theorem to_char_cast (b : Nat) (h : b < 256) : to_char (b : Int) = b := by
  unfold to_char
  omega

theorem escape_byte_cast (b : Nat) (h : b < 256) : escape_byte (b : Int) = spec_escape b := by
  unfold escape_byte spec_escape
  rw [to_char_cast b h]
  have e : ∀ k : Nat, ((b : Int) = (k : Int)) = (b = k) := fun k => by
    apply propext; constructor <;> intro h <;> omega
  simp only [show (110 : Int) = ((110 : Nat) : Int) from rfl, show (116 : Int) = ((116 : Nat) : Int) from rfl,
    show (114 : Int) = ((114 : Nat) : Int) from rfl, show (98 : Int) = ((98 : Nat) : Int) from rfl,
    show (102 : Int) = ((102 : Nat) : Int) from rfl, show (48 : Int) = ((48 : Nat) : Int) from rfl,
    show (34 : Int) = ((34 : Nat) : Int) from rfl, show (92 : Int) = ((92 : Nat) : Int) from rfl, e]


theorem spec_decode_quote (rest : List Nat) : spec_decode (34 :: rest) = none := by
  cases rest <;> simp [spec_decode]

theorem spec_decode_escape (e : Nat) (rest : List Nat) :
    spec_decode (92 :: e :: rest) = (spec_decode rest).map (fun d => spec_escape e :: d) := by
  simp [spec_decode]

theorem spec_decode_plain (c : Nat) (rest : List Nat) (h92 : c ≠ 92) (h34 : c ≠ 34) :
    spec_decode (c :: rest) = (spec_decode rest).map (fun d => c :: d) := by
  cases rest <;> simp [spec_decode, h92, h34]

theorem lex_string_loop_at_quote (f : Nat) (acc : List Nat) (lexer : Lexer)
    (h : lexer.current_char = 34) : lex_string_loop f acc lexer = (acc, lexer) := by
  cases f <;> simp [lex_string_loop, h]

theorem lex_string_loop_closed (n : Nat) :
    ∀ (body acc : List Nat) (lexer : Lexer) (f : Nat) (rest d : List Nat),
      body.length ≤ n → pending lexer (body ++ 34 :: rest) → (∀ b ∈ body, b < 256) →
      spec_decode body = some d → acc.length + d.length ≤ MAX_LEXEME_LENGTH - 1 →
      body.length < f →
      (lex_string_loop f acc lexer).1 = acc ++ d ∧
      pending (lex_string_loop f acc lexer).2 (34 :: rest) := by
  induction n with
  | zero =>
    intro body acc lexer f rest d hn hp _ hd _ hf
    have hb : body = [] := List.eq_nil_of_length_eq_zero (Nat.le_zero.mp hn)
    subst hb
    simp only [spec_decode, Option.some.injEq] at hd
    subst hd
    rw [lex_string_loop_at_quote f acc lexer hp.1]
    exact ⟨by simp, hp⟩
  | succ n ih =>
    intro body acc lexer f rest d hn hp hb hd hlen hf
    cases body with
    | nil =>
      simp only [spec_decode, Option.some.injEq] at hd
      subst hd
      rw [lex_string_loop_at_quote f acc lexer hp.1]
      exact ⟨by simp, hp⟩
    | cons c body1 =>
      obtain ⟨f, rfl⟩ : ∃ g, f = g + 1 := ⟨f - 1, by simp at hf; omega⟩
      obtain ⟨hc, hp1⟩ := pending_cons lexer c _ hp
      have hc256 : c < 256 := hb c (List.mem_cons_self _ _)
      by_cases h92 : c = 92
      · subst h92
        cases body1 with
        | nil => simp [spec_decode] at hd
        | cons e body2 =>
          simp only [spec_decode_escape, Option.map_eq_some'] at hd
          obtain ⟨d2, hd2, rfl⟩ := hd
          obtain ⟨he, hp2⟩ := pending_cons _ e _ hp1
          have he256 : e < 256 := hb e (by simp)
          have hgoal := ih body2 (acc ++ [spec_escape e]) (lex_advance (lex_advance lexer)) f rest d2
            (by simp at hn; omega) hp2 (fun b hb2 => hb b (by simp [hb2])) hd2
            (by simp at hlen ⊢; omega) (by simp at hf; omega)
          have hne : lexer.current_char ≠ 34 ∧ lexer.current_char ≠ EOF := by
            rw [hc]; exact ⟨by decide, by decide⟩
          simp only [lex_string_loop, if_pos hne, hc, he, escape_byte_cast e he256]
          simpa using hgoal
      · by_cases h34 : c = 34
        · subst h34; simp [spec_decode_quote] at hd
        · simp only [spec_decode_plain c body1 h92 h34, Option.map_eq_some'] at hd
          obtain ⟨d1, hd1, rfl⟩ := hd
          have hgoal := ih body1 (acc ++ [c]) (lex_advance lexer) f rest d1
            (by simp at hn; omega) hp1 (fun b hb2 => hb b (by simp [hb2])) hd1
            (by simp at hlen ⊢; omega) (by simp at hf; omega)
          have hne : ¬ (c : Int) = 34 ∧ ¬ (c : Int) = EOF := by
            unfold EOF; omega
          have hne92 : ¬ (c : Int) = 92 := by omega
          have hl : acc.length < MAX_LEXEME_LENGTH - 1 := by simp at hlen; omega
          simp only [lex_string_loop, hc, ne_eq]
          rw [if_pos hne, if_neg hne92, if_pos hl, to_char_cast c hc256]
          simpa using hgoal


theorem skip_whitespace_id (lexer : Lexer) (h : isspace lexer.current_char = false) :
    skip_whitespace lexer = lexer := by
  rw [skip_whitespace_eq, h]; rfl

theorem lex_next_token_at_quote (lexer : Lexer) (h : lexer.current_char = 34) :
    lex_next_token lexer = lex_string lexer := by
  have hw : skip_whitespace lexer = lexer := skip_whitespace_id lexer (by rw [h]; decide)
  have hcm : at_comment lexer = false := by simp [at_comment, h]
  rw [lex_next_token_eq, hw, if_neg (by rw [h]; decide), hcm]
  simp [lex_dispatch, h, isalpha, isdigit]

theorem pending_file_length (lexer : Lexer) (input : List Nat) (h : pending lexer input) :
    lexer.file.length = input.length - 1 := by
  rw [h.2]; cases input <;> simp [file_get]

theorem c_string_of_no_nul (l : List Nat) (h : ∀ b ∈ l, b ≠ 0) : c_string l = l := by
  unfold c_string
  rw [List.takeWhile_eq_self_iff]
  intro b hb
  simpa using h b hb

/-- At the opening quote of a literal whose body is closed by an unescaped quote
and whose decoded content has at most 255 bytes, `lex_next_token` writes inside
the buffer and returns a `TOKEN_STRING_LITERAL` token whose lexeme is the decoded
content read as a NUL-terminated string: the decoded bytes before the first NUL.
The lexer is left just after the closing quote. -/
theorem lex_string_closed_lexeme (lexer : Lexer) (body rest decoded : List Nat)
    (hcur : lexer.current_char = 34) (hfile : lexer.file = body ++ 34 :: rest)
    (hbytes : ∀ b ∈ body, b < 256) (hdec : spec_decode body = some decoded)
    (hlen : decoded.length ≤ MAX_LEXEME_LENGTH - 1) :
    lex_string_defined lexer = true ∧
    (lex_next_token lexer).1.type = TOKEN_STRING_LITERAL ∧
    (lex_next_token lexer).1.lexeme = c_string decoded ∧
    (lex_next_token lexer).1.column = lexer.column ∧
    pending (lex_next_token lexer).2 rest := by
  have hp : pending lexer (34 :: (body ++ 34 :: rest)) := pending_of lexer 34 _ hcur hfile
  have hp1 := (pending_cons lexer 34 _ hp).2
  have hflen := pending_file_length _ _ hp1
  obtain ⟨h1, h2⟩ := lex_string_loop_closed body.length body [] (lex_advance lexer)
    ((lex_advance lexer).file.length + 1) rest decoded (le_refl _) hp1 hbytes hdec
    (by simpa using hlen) (by rw [hflen]; simp; omega)
  have hq : (lex_string_loop ((lex_advance lexer).file.length + 1) [] (lex_advance lexer)).2.current_char
      = 34 := (pending_cons _ 34 rest h2).1
  have hrest := (pending_cons _ 34 rest h2).2
  have h1' : (lex_string_loop ((lex_advance lexer).file.length + 1) [] (lex_advance lexer)).1
      = decoded := by simpa using h1
  refine ⟨?_, ?_⟩
  · simp only [lex_string_defined]
    rw [if_pos hq, h1']
    simp only [decide_eq_true_eq, MAX_LEXEME_LENGTH] at hlen ⊢
    omega
  · rw [lex_next_token_at_quote lexer hcur]
    simp only [lex_string]
    rw [if_pos hq, h1']
    exact ⟨rfl, rfl, rfl, hrest⟩

/-- C4: the literal quote, `a`, backslash, `0`, `b`, quote is closed and its
decoded content is the three bytes `a`, NUL, `b`; the call of `lex_next_token`
writes inside the buffer and returns a `TOKEN_STRING_LITERAL` token whose lexeme
is the one byte `a`: the lexeme ends at the NUL that the escape stored.  Without
a NUL, as in quote, `a`, backslash, `n`, `b`, quote, the lexeme is the decoded
content. -/
theorem lex_string_nul_ends_lexeme :
    spec_decode (bytes "a\\0b") = some [97, 0, 98] ∧
    lex_next_token_defined (create_lexer (bytes "\"a\\0b\"")) = true ∧
    (lex_next_token (create_lexer (bytes "\"a\\0b\""))).1
      = ⟨TOKEN_STRING_LITERAL, [97], 1, 1⟩ ∧
    (lex_next_token (create_lexer (bytes "\"a\\nb\""))).1
      = ⟨TOKEN_STRING_LITERAL, [97, 10, 98], 1, 1⟩ := by
  decide

/-! ## Literals left open -/

theorem spec_open_length_quote (rest : List Nat) : spec_open_length (34 :: rest) = none := by
  cases rest <;> simp [spec_open_length]

theorem spec_open_length_escape (e : Nat) (rest : List Nat) :
    spec_open_length (92 :: e :: rest) = (spec_open_length rest).map (fun k => k + 1) := by
  simp [spec_open_length]

theorem spec_open_length_plain (c : Nat) (rest : List Nat) (h92 : c ≠ 92) (h34 : c ≠ 34) :
    spec_open_length (c :: rest) = (spec_open_length rest).map (fun k => k + 1) := by
  cases rest <;> simp [spec_open_length, h92, h34]

theorem lex_string_loop_at_eof (f : Nat) (acc : List Nat) (lexer : Lexer)
    (h : lexer.current_char = EOF) : lex_string_loop f acc lexer = (acc, lexer) := by
  cases f <;> simp [lex_string_loop, h]

theorem pending_nil_advance (lexer : Lexer) (h : pending lexer []) :
    pending (lex_advance lexer) [] := by
  obtain ⟨h1, h2⟩ := h
  constructor <;> simp [lex_advance, h2, file_get]

theorem lex_string_loop_open (n : Nat) :
    ∀ (body acc : List Nat) (lexer : Lexer) (f k : Nat),
      body.length ≤ n → pending lexer body →
      spec_open_length body = some k → acc.length + k ≤ MAX_LEXEME_LENGTH - 1 →
      body.length ≤ f →
      pending (lex_string_loop f acc lexer).2 [] := by
  induction n with
  | zero =>
    intro body acc lexer f k hn hp _ _ _
    have hb : body = [] := List.eq_nil_of_length_eq_zero (Nat.le_zero.mp hn)
    subst hb
    rw [lex_string_loop_at_eof f acc lexer hp.1]
    exact hp
  | succ n ih =>
    intro body acc lexer f k hn hp hd hlen hf
    cases body with
    | nil =>
      rw [lex_string_loop_at_eof f acc lexer hp.1]
      exact hp
    | cons c body1 =>
      obtain ⟨f, rfl⟩ : ∃ g, f = g + 1 := ⟨f - 1, by simp at hf; omega⟩
      obtain ⟨hc, hp1⟩ := pending_cons lexer c _ hp
      by_cases h92 : c = 92
      · subst h92
        have hne : ¬ ((92 : Nat) : Int) = 34 ∧ ¬ ((92 : Nat) : Int) = EOF := by
          exact ⟨by decide, by decide⟩
        simp only [lex_string_loop, hc, ne_eq]
        rw [if_pos hne, if_pos (by decide : ((92 : Nat) : Int) = 92)]
        cases body1 with
        | nil =>
          rw [lex_string_loop_at_eof _ _ _ (pending_nil_advance _ hp1).1]
          exact pending_nil_advance _ hp1
        | cons e body2 =>
          simp only [spec_open_length_escape, Option.map_eq_some'] at hd
          obtain ⟨k2, hd2, rfl⟩ := hd
          obtain ⟨_, hp2⟩ := pending_cons _ e _ hp1
          exact ih body2 _ (lex_advance (lex_advance lexer)) f k2
            (by simp at hn; omega) hp2 hd2
            (by simp at hlen ⊢; omega) (by simp at hf; omega)
      · by_cases h34 : c = 34
        · subst h34; simp [spec_open_length_quote] at hd
        · simp only [spec_open_length_plain c body1 h92 h34, Option.map_eq_some'] at hd
          obtain ⟨k1, hd1, rfl⟩ := hd
          have hne : ¬ (c : Int) = 34 ∧ ¬ (c : Int) = EOF := by
            unfold EOF; omega
          have hne92 : ¬ (c : Int) = 92 := by omega
          have hl : acc.length < MAX_LEXEME_LENGTH - 1 := by omega
          simp only [lex_string_loop, hc, ne_eq]
          rw [if_pos hne, if_neg hne92, if_pos hl]
          exact ih body1 _ (lex_advance lexer) f k1
            (by simp at hn; omega) hp1 hd1
            (by simp at hlen ⊢; omega) (by simp at hf; omega)

/-- C9: at the opening quote of a literal that no unescaped quote closes before
end of input and whose content decodes to at most 255 bytes, `lex_next_token`
returns a `TOKEN_ERROR` token whose lexeme is the placeholder
`Unterminated string`, and the next call returns a `TOKEN_EOF` token. -/
theorem lex_string_unterminated (lexer : Lexer) (body : List Nat) (k : Nat)
    (hcur : lexer.current_char = 34) (hfile : lexer.file = body)
    (hopen : spec_open_length body = some k) (hlen : k ≤ MAX_LEXEME_LENGTH - 1) :
    (nth_token 0 lexer).type = TOKEN_ERROR ∧
    (nth_token 0 lexer).lexeme = bytes "Unterminated string" ∧
    (nth_token 0 lexer).column = lexer.column ∧
    (nth_token 1 lexer).type = TOKEN_EOF := by
  have hp : pending lexer (34 :: body) := pending_of lexer 34 _ hcur hfile
  have hp1 := (pending_cons lexer 34 _ hp).2
  have hflen := pending_file_length _ _ hp1
  have h2 := lex_string_loop_open body.length body [] (lex_advance lexer)
    ((lex_advance lexer).file.length + 1) k (le_refl _) hp1 hopen
    (by simpa using hlen) (by rw [hflen]; omega)
  have hq : (lex_string_loop ((lex_advance lexer).file.length + 1) [] (lex_advance lexer)).2.current_char
      = EOF := h2.1
  have hq34 : ¬ (lex_string_loop ((lex_advance lexer).file.length + 1) []
      (lex_advance lexer)).2.current_char = 34 := by rw [hq]; decide
  have e : lex_next_token lexer = lex_string lexer := lex_next_token_at_quote lexer hcur
  have e0 : nth_token 0 lexer = (lex_string lexer).1 := by unfold nth_token nth_lexer; rw [e]
  have e1 : nth_token 1 lexer = (lex_next_token (lex_string lexer).2).1 := by
    unfold nth_token nth_lexer nth_lexer; rw [e]
  rw [e0, e1]
  simp only [lex_string]
  rw [if_neg hq34]
  refine ⟨rfl, rfl, rfl, ?_⟩
  rw [lex_next_token_at_eof _ hq]
  rfl

/-- The witness of C9: the four bytes quote, `a`, `b`, `c`. -/
theorem lex_string_unterminated_witness :
    spec_open_length (bytes "abc") = some 3 ∧
    (nth_token 0 (create_lexer (bytes "\"abc"))).type = TOKEN_ERROR ∧
    (nth_token 0 (create_lexer (bytes "\"abc"))).lexeme = bytes "Unterminated string" ∧
    (nth_token 0 (create_lexer (bytes "\"abc"))).column = 1 ∧
    (nth_token 1 (create_lexer (bytes "\"abc"))).type = TOKEN_EOF :=
  ⟨by decide,
    lex_string_unterminated (create_lexer (bytes "\"abc")) (bytes "abc") 3
      (by decide) (by decide) (by decide) (by decide)⟩

/-! ## Identifiers and keywords -/

theorem lookup_keyword_loop_table (w : List Nat) (table : List (List Nat × TokenType))
    (n : Nat) (t : TokenType) :
    lookup_keyword_loop w
        (table.map (fun p => (⟨some p.1, p.2⟩ : Keyword)) ++ List.replicate n ⟨none, t⟩)
      = (table.lookup w).getD TOKEN_IDENTIFIER := by
  induction table with
  | nil =>
    induction n with
    | zero => rfl
    | succ n ih => simpa [List.replicate, lookup_keyword_loop] using ih
  | cons p table ih =>
    simp only [List.map_cons, List.cons_append, lookup_keyword_loop, List.lookup]
    by_cases h : w = p.1
    · subst h; simp
    · have h' : (w == p.1) = false := by simpa using h
      have h'' : ¬ (some p.1 = some w) := by
        intro e; exact h (Option.some.inj e).symm
      rw [if_neg h'', h']
      exact ih

theorem keywords_eq : keywords.take KEYWORD_COUNT =
    reserved_words.map (fun p => (⟨some p.1, p.2⟩ : Keyword)) ++
      List.replicate 8 ⟨none, TOKEN_INT⟩ := by
  decide

/-- The value computed for a lookup is the kind of the specification; the lookup
of the source returns it when it is defined, that is, for a reserved spelling. -/
theorem lookup_keyword_eq_spec (w : List Nat) : lookup_keyword w = spec_keyword_kind w := by
  unfold lookup_keyword spec_keyword_kind
  rw [keywords_eq]
  exact lookup_keyword_loop_table w reserved_words 8 TOKEN_INT


theorem is_identifier_part_bound (c : Nat) (h : is_identifier_part (c : Int) = true) :
    c < 256 ∧ c ≠ 10 ∧ c ≠ 47 ∧ isspace (c : Int) = false := by
  simp only [is_identifier_part, isalnum, isalpha, isdigit, isspace, Bool.or_eq_true,
    Bool.and_eq_true, decide_eq_true_eq, beq_iff_eq] at h ⊢
  refine ⟨by omega, by omega, by omega, ?_⟩
  simp only [Bool.or_eq_false_iff, Bool.and_eq_false_iff, decide_eq_false_iff_not, beq_eq_false_iff_ne]
  omega

theorem is_identifier_start_part (c : Int) (h : is_identifier_start c = true) :
    is_identifier_part c = true := by
  simp only [is_identifier_start, is_identifier_part, isalnum, Bool.or_eq_true] at h ⊢
  rcases h with h | h
  · exact Or.inl (Or.inl h)
  · exact Or.inr h

theorem lex_identifier_loop_stop (f : Nat) (acc : List Nat) (lexer : Lexer)
    (h : is_identifier_part lexer.current_char = false) :
    lex_identifier_loop f acc lexer = (acc, lexer) := by
  have hn : ¬ (isalnum lexer.current_char = true ∨ lexer.current_char = 95) := by
    simp only [is_identifier_part, Bool.or_eq_false_iff, beq_eq_false_iff_ne] at h
    rintro (h1 | h1)
    · rw [h.1] at h1; exact absurd h1 (by decide)
    · exact h.2 h1
  cases f with
  | zero => rfl
  | succ n => simp only [lex_identifier_loop]; rw [if_neg hn]

theorem lex_identifier_loop_run (run : List Nat) :
    ∀ (acc tail : List Nat) (lexer : Lexer) (f : Nat),
      pending lexer (run ++ tail) →
      (∀ c ∈ run, is_identifier_part (c : Int) = true) →
      is_identifier_part (file_get tail).1 = false →
      acc.length + run.length ≤ MAX_LEXEME_LENGTH - 1 → run.length ≤ f →
      (lex_identifier_loop f acc lexer).1 = acc ++ run ∧
      pending (lex_identifier_loop f acc lexer).2 tail ∧
      (lex_identifier_loop f acc lexer).2.line = lexer.line ∧
      (lex_identifier_loop f acc lexer).2.column = lexer.column + run.length := by
  induction run with
  | nil =>
    intro acc tail lexer f hp _ ht _ _
    have hc : is_identifier_part lexer.current_char = false := by
      rw [show lexer.current_char = (file_get tail).1 from hp.1]; exact ht
    rw [lex_identifier_loop_stop f acc lexer hc]
    exact ⟨by simp, hp, rfl, rfl⟩
  | cons c run ih =>
    intro acc tail lexer f hp hrun ht hlen hf
    obtain ⟨f, rfl⟩ : ∃ g, f = g + 1 := ⟨f - 1, by simp at hf; omega⟩
    obtain ⟨hc, hp1⟩ := pending_cons lexer c _ hp
    have hcp := hrun c (List.mem_cons_self _ _)
    obtain ⟨hc256, hc10, _, _⟩ := is_identifier_part_bound c hcp
    have hcond : isalnum (c : Int) = true ∨ (c : Int) = 95 := by
      simpa [is_identifier_part] using hcp
    have hl : acc.length < MAX_LEXEME_LENGTH - 1 := by simp at hlen; omega
    obtain ⟨h1, h2, h3, h4⟩ := ih (acc ++ [c]) tail (lex_advance lexer) f hp1
      (fun d hd => hrun d (List.mem_cons_of_mem _ hd)) ht
      (by simp at hlen ⊢; omega) (by simp at hf; omega)
    have hline : (lex_advance lexer).line = lexer.line := by
      simp only [lex_advance, hc]; rw [if_neg (by omega)]
    have hcol : (lex_advance lexer).column = lexer.column + 1 := by
      simp only [lex_advance, hc]; rw [if_neg (by omega)]
    simp only [lex_identifier_loop, hc]
    rw [if_pos hcond, if_pos hl, to_char_cast c hc256]
    refine ⟨by simpa using h1, h2, by rw [h3, hline], ?_⟩
    rw [h4, hcol]; simp; omega


theorem identifier_shaped_cons (w : List Nat) (h : identifier_shaped w = true) :
    ∃ c rest, w = c :: rest ∧ is_identifier_start (c : Int) = true ∧
      (∀ d ∈ rest, is_identifier_part (d : Int) = true) ∧
      rest.length + 1 ≤ MAX_LEXEME_LENGTH - 1 := by
  cases w with
  | nil => simp [identifier_shaped] at h
  | cons c rest =>
    simp only [identifier_shaped, Bool.and_eq_true, List.all_eq_true, decide_eq_true_eq,
      List.length_cons] at h
    exact ⟨c, rest, rfl, h.1.1, h.1.2, h.2⟩

theorem is_identifier_part_ne_nul (c : Nat) (h : is_identifier_part (c : Int) = true) :
    c ≠ 0 := by
  intro h0
  subst h0
  exact absurd h (by decide)

theorem identifier_shaped_no_nul (w : List Nat) (h : identifier_shaped w = true) :
    c_string w = w := by
  obtain ⟨c, rest, rfl, hstart, hrest, _⟩ := identifier_shaped_cons w h
  apply c_string_of_no_nul
  intro b hb
  rcases List.mem_cons.mp hb with rfl | hb
  · exact is_identifier_part_ne_nul _ (is_identifier_start_part _ hstart)
  · exact is_identifier_part_ne_nul _ (hrest b hb)

theorem lookup_keyword_defined_loop_table (w : List Nat)
    (table : List (List Nat × TokenType)) (n : Nat) (t : TokenType) :
    lookup_keyword_defined_loop w
        (table.map (fun p => (⟨some p.1, p.2⟩ : Keyword)) ++ List.replicate (n + 1) ⟨none, t⟩)
      = (table.lookup w).isSome := by
  induction table with
  | nil => rfl
  | cons p table ih =>
    simp only [List.map_cons, List.cons_append, lookup_keyword_defined_loop, List.lookup]
    by_cases h : w = p.1
    · subst h; simp
    · have h' : (w == p.1) = false := by simpa using h
      have h'' : ¬ (p.1 = w) := fun e => h e.symm
      rw [if_neg h'', h']
      exact ih

/-- The lookup of a lexeme is defined exactly when the lexeme is one of the
seventeen reserved spellings: the lookup of any other lexeme reaches the entries
without a spelling. -/
theorem lookup_keyword_defined_iff_reserved (w : List Nat) :
    lookup_keyword_defined w = (reserved_words.lookup w).isSome := by
  unfold lookup_keyword_defined
  rw [keywords_eq]
  exact lookup_keyword_defined_loop_table w reserved_words 7 TOKEN_INT

/-- At the first character of an identifier-shaped word `w` that is followed by
`tail`, a text that does not go on with an identifier character, the call of
`lex_next_token` is defined exactly when `w` is a reserved spelling; the token
computed is the token of `w` at the position of the lexer, and the lexer is left
at `tail`, on the same line, `w.length` columns further. -/
theorem lex_next_token_identifier (lexer : Lexer) (w tail : List Nat)
    (hp : pending lexer (w ++ tail)) (hw : identifier_shaped w = true)
    (ht : is_identifier_part (file_get tail).1 = false) :
    lex_next_token_defined lexer = (reserved_words.lookup w).isSome ∧
    (lex_next_token lexer).1 = create_token (lookup_keyword w) w lexer.line lexer.column ∧
    pending (lex_next_token lexer).2 tail ∧
    (lex_next_token lexer).2.line = lexer.line ∧
    (lex_next_token lexer).2.column = lexer.column + w.length := by
  have hnul := identifier_shaped_no_nul w hw
  obtain ⟨c, rest, rfl, hstart, hrest, hlen⟩ := identifier_shaped_cons w hw
  obtain ⟨hc, hp1⟩ := pending_cons lexer c _ hp
  obtain ⟨hc256, hc10, hc47, hsp⟩ := is_identifier_part_bound c (is_identifier_start_part _ hstart)
  have hflen := pending_file_length _ _ hp1
  obtain ⟨h1, h2, h3, h4⟩ := lex_identifier_loop_run rest [c] tail (lex_advance lexer)
    ((lex_advance lexer).file.length + 1) hp1 hrest ht (by simp; omega)
    (by rw [hflen]; simp; omega)
  have hline : (lex_advance lexer).line = lexer.line := by
    simp only [lex_advance, hc]; rw [if_neg (by omega)]
  have hcol : (lex_advance lexer).column = lexer.column + 1 := by
    simp only [lex_advance, hc]; rw [if_neg (by omega)]
  have hw0 : skip_whitespace lexer = lexer := skip_whitespace_id lexer (by rw [hc]; exact hsp)
  have hne : ¬ lexer.current_char = EOF := by rw [hc]; exact cast_ne_EOF c
  have hcm : at_comment lexer = false := by
    have : ¬ (c : Int) = 47 := by omega
    simp [at_comment, hc, this]
  have hcond : isalpha lexer.current_char = true ∨ lexer.current_char = 95 := by
    rw [hc]; simpa [is_identifier_start] using hstart
  have e : lex_next_token lexer = lex_identifier_or_keyword lexer := by
    rw [lex_next_token_eq, hw0, if_neg hne, hcm]
    simp only [lex_dispatch, Bool.false_eq_true, if_false]
    rw [if_pos hcond]
  have ed : lex_next_token_defined lexer = lex_identifier_or_keyword_defined lexer := by
    rw [lex_next_token_defined_eq, hw0, if_neg hne, hcm]
    simp only [lex_dispatch_defined, Bool.false_eq_true, if_false]
    rw [if_pos hcond]
  simp only [List.singleton_append] at h1
  refine ⟨?_, ?_, ?_⟩
  · rw [ed]
    simp only [lex_identifier_or_keyword_defined, hc, to_char_cast c hc256]
    rw [h1, hnul, lookup_keyword_defined_iff_reserved]
  · rw [e]
    simp only [lex_identifier_or_keyword, hc, to_char_cast c hc256]
    rw [h1, h3, hline, hnul]
  · rw [e]
    simp only [lex_identifier_or_keyword, hc, to_char_cast c hc256]
    refine ⟨h2, by rw [h3, hline], ?_⟩
    rw [h4, hcol]; simp; omega

theorem file_get_nil_part : is_identifier_part (file_get []).1 = false := by decide

/-- An identifier-shaped word lexed alone: the call is defined exactly when the
word is reserved, and then it returns the token of that keyword at line 1,
column 1, and the next call returns a `TOKEN_EOF` token. -/
theorem lex_identifier_shaped_alone (w : List Nat) (hw : identifier_shaped w = true) :
    lex_next_token_defined (create_lexer w) = (reserved_words.lookup w).isSome ∧
    (∀ kind, reserved_words.lookup w = some kind →
      nth_token 0 (create_lexer w) = ⟨kind, w, 1, 1⟩ ∧
      (nth_token 1 (create_lexer w)).type = TOKEN_EOF) := by
  obtain ⟨h0, h1, h2, _, _⟩ := lex_next_token_identifier (create_lexer w) w []
    (by simpa using pending_create_lexer w) hw file_get_nil_part
  refine ⟨h0, ?_⟩
  intro kind hk
  refine ⟨?_, ?_⟩
  · show (lex_next_token (create_lexer w)).1 = _
    rw [h1, lookup_keyword_eq_spec, spec_keyword_kind, hk]; rfl
  · show (lex_next_token (lex_next_token (create_lexer w)).2).1.type = _
    rw [lex_next_token_at_eof _ h2.1]; rfl

/-- C5: the reserved word `for` lexed alone gives, by a defined call, the token
of kind `TOKEN_FOR` with lexeme `for` at line 1, column 1, and then a `TOKEN_EOF`
token; for the words `for1` and `_for`, which are not reserved, the lookup runs
past the seventeen spellings into the entries without one, so the call is
undefined and returns no `TOKEN_IDENTIFIER` token. -/
theorem non_reserved_word_lookup_undefined :
    lex_next_token_defined (create_lexer (bytes "for")) = true ∧
    nth_token 0 (create_lexer (bytes "for")) = ⟨TOKEN_FOR, bytes "for", 1, 1⟩ ∧
    (nth_token 1 (create_lexer (bytes "for"))).type = TOKEN_EOF ∧
    lookup_keyword_defined (bytes "for1") = false ∧
    lex_next_token_defined (create_lexer (bytes "for1")) = false ∧
    lookup_keyword_defined (bytes "_for") = false ∧
    lex_next_token_defined (create_lexer (bytes "_for")) = false := by
  decide

/-! ## Line comments -/

theorem skip_line_loop_run (run : List Nat) :
    ∀ (tail : List Nat) (lexer : Lexer) (f : Nat),
      pending lexer (run ++ 10 :: tail) → (∀ b ∈ run, b ≠ 10) → run.length ≤ f →
      pending (skip_line_loop f lexer) (10 :: tail) ∧
      (skip_line_loop f lexer).line = lexer.line := by
  induction run with
  | nil =>
    intro tail lexer f hp _ _
    have hc : lexer.current_char = 10 := hp.1
    have e : skip_line_loop f lexer = lexer := by
      cases f <;> simp [skip_line_loop, hc]
    rw [e]; exact ⟨hp, rfl⟩
  | cons b run ih =>
    intro tail lexer f hp hrun hf
    obtain ⟨f, rfl⟩ : ∃ g, f = g + 1 := ⟨f - 1, by simp at hf; omega⟩
    obtain ⟨hc, hp1⟩ := pending_cons lexer b _ hp
    have hb : b ≠ 10 := hrun b (List.mem_cons_self _ _)
    have hcond : ¬ (b : Int) = 10 ∧ ¬ (b : Int) = EOF := by
      unfold EOF; omega
    obtain ⟨h1, h2⟩ := ih tail (lex_advance lexer) f hp1
      (fun d hd => hrun d (List.mem_cons_of_mem _ hd)) (by simp at hf; omega)
    have hline : (lex_advance lexer).line = lexer.line := by
      simp only [lex_advance, hc]; rw [if_neg (by omega)]
    simp only [skip_line_loop, hc, ne_eq]
    rw [if_pos hcond]
    exact ⟨h1, by rw [h2, hline]⟩

theorem lex_advance_line (lexer : Lexer) (h : lexer.current_char ≠ 10) :
    (lex_advance lexer).line = lexer.line := by
  simp only [lex_advance]; rw [if_neg h]

theorem lex_advance_newline (lexer : Lexer) (h : lexer.current_char = 10) :
    (lex_advance lexer).line = lexer.line + 1 ∧ (lex_advance lexer).column = 1 := by
  simp only [lex_advance]; rw [if_pos h, if_pos h]; exact ⟨rfl, rfl⟩

theorem is_identifier_part_space (t : List Nat) :
    is_identifier_part (file_get (32 :: t)).1 = false := by
  show is_identifier_part ((32 : Nat) : Int) = false
  decide

/-- Two identifier-shaped words `x` and `y` around a line comment whose text `c`
holds no line feed: the call on `x` and the call that skips the comment and
scans `y` are each defined exactly when the word is reserved; the tokens computed
are the token of `x` at line 1, column 1, the token of `y` at line 2, column 1,
and then a `TOKEN_EOF` token.  The comment gives no token. -/
theorem line_comment_skipped (x y c : List Nat)
    (hx : identifier_shaped x = true) (hy : identifier_shaped y = true)
    (hc : ∀ b ∈ c, b ≠ 10) :
    lex_next_token_defined (create_lexer (x ++ 32 :: 47 :: 47 :: (c ++ 10 :: y)))
      = (reserved_words.lookup x).isSome ∧
    nth_token 0 (create_lexer (x ++ 32 :: 47 :: 47 :: (c ++ 10 :: y)))
      = ⟨spec_keyword_kind x, x, 1, 1⟩ ∧
    lex_next_token_defined (nth_lexer 1 (create_lexer (x ++ 32 :: 47 :: 47 :: (c ++ 10 :: y))))
      = (reserved_words.lookup y).isSome ∧
    nth_token 1 (create_lexer (x ++ 32 :: 47 :: 47 :: (c ++ 10 :: y)))
      = ⟨spec_keyword_kind y, y, 2, 1⟩ ∧
    (nth_token 2 (create_lexer (x ++ 32 :: 47 :: 47 :: (c ++ 10 :: y)))).type = TOKEN_EOF := by
  generalize hl0 : create_lexer (x ++ 32 :: 47 :: 47 :: (c ++ 10 :: y)) = l0
  have hp0 : pending l0 (x ++ 32 :: 47 :: 47 :: (c ++ 10 :: y)) := by
    rw [← hl0]; exact pending_create_lexer _
  have hline0 : l0.line = 1 := by rw [← hl0]; rfl
  have hcol0 : l0.column = 1 := by rw [← hl0]; rfl
  -- the first call: the identifier `x`
  obtain ⟨a0, a1, a2, a3, _⟩ := lex_next_token_identifier l0 x _ hp0 hx (is_identifier_part_space _)
  generalize hl1 : (lex_next_token l0).2 = l1 at a2 a3
  -- the second call: the space, the comment, the identifier `y`
  have b1 : l1.current_char = 32 := (pending_cons l1 32 _ a2).1
  have b2 := (pending_cons l1 32 _ a2).2
  have hsp1 : isspace l1.current_char = true := by rw [b1]; decide
  have b3 : (lex_advance l1).current_char = 47 := (pending_cons _ 47 _ b2).1
  have b4 := (pending_cons _ 47 _ b2).2
  have hsp2 : isspace (lex_advance l1).current_char = false := by rw [b3]; decide
  have hw : skip_whitespace l1 = lex_advance l1 := by
    rw [skip_whitespace_eq, if_pos hsp1, skip_whitespace_id _ hsp2]
  have hline2 : (lex_advance l1).line = 1 := by
    rw [lex_advance_line l1 (by rw [b1]; decide), a3, hline0]
  have hcm : at_comment (lex_advance l1) = true := by
    have hf : (lex_advance l1).file = 47 :: (c ++ 10 :: y) := b2.2
    simp only [at_comment, b3, hf, file_peek]
    decide
  have b5 : (lex_advance (lex_advance l1)).current_char = 47 := (pending_cons _ 47 _ b4).1
  have hflen := pending_file_length _ _ b4
  obtain ⟨c1, c2⟩ := skip_line_loop_run (47 :: c) y (lex_advance (lex_advance l1))
    ((lex_advance (lex_advance l1)).file.length + 1) b4
    (by
      intro b hb
      rcases List.mem_cons.mp hb with rfl | hb
      · decide
      · exact hc b hb)
    (by rw [hflen]; simp)
  have hline3 : (lex_advance (lex_advance l1)).line = 1 := by
    rw [lex_advance_line _ (by rw [b3]; decide), hline2]
  have c3 : (skip_line_loop ((lex_advance (lex_advance l1)).file.length + 1)
      (lex_advance (lex_advance l1))).current_char = 10 := (pending_cons _ 10 _ c1).1
  have c4 := (pending_cons _ 10 _ c1).2
  have hsk : skip_comments (lex_advance l1) =
      lex_advance (skip_line_loop ((lex_advance (lex_advance l1)).file.length + 1)
        (lex_advance (lex_advance l1))) := by
    simp only [skip_comments]
    rw [if_pos b3, if_pos b5, if_pos c3]
  obtain ⟨c5, c6⟩ := lex_advance_newline _ c3
  generalize hl3 : skip_comments (lex_advance l1) = l3 at hsk
  have hp3 : pending l3 (y ++ []) := by rw [hsk]; simpa using c4
  have hline4 : l3.line = 2 := by rw [hsk, c5, c2, hline3]
  have hcol4 : l3.column = 1 := by rw [hsk, c6]
  obtain ⟨d0, d1, d2, _, _⟩ := lex_next_token_identifier l3 y [] hp3 hy file_get_nil_part
  have hne : ¬ (lex_advance l1).current_char = EOF := by rw [b3]; decide
  have e2 : lex_next_token l1 = lex_next_token l3 := by
    rw [lex_next_token_eq l1, hw, if_neg hne, if_pos hcm, hl3]
  have e2d : lex_next_token_defined l1 = lex_next_token_defined l3 := by
    rw [lex_next_token_defined_eq l1, hw, if_neg hne, if_pos hcm, hl3]
  refine ⟨a0, ?_, ?_, ?_, ?_⟩
  · show (lex_next_token l0).1 = _
    rw [a1, lookup_keyword_eq_spec, hline0, hcol0]; rfl
  · show lex_next_token_defined (lex_next_token l0).2 = _
    rw [hl1, e2d, d0]
  · show (lex_next_token (lex_next_token l0).2).1 = _
    rw [hl1, e2, d1, lookup_keyword_eq_spec, hline4, hcol4]; rfl
  · show (lex_next_token (lex_next_token (lex_next_token l0).2).2).1.type = _
    rw [hl1, e2, lex_next_token_at_eof _ d2.1]; rfl

/-- C10: on the input `x // comment`, line feed, `y` the first call of
`lex_next_token` scans `x`, which is not a reserved word, and its lookup runs
into the keyword entries without a spelling: the call is undefined and returns
no identifier token.  With reserved words in the place of `x` and `y`, as in
`if // comment`, line feed, `else`, the calls are defined and give the token of
`if` at line 1, column 1, the token of `else` at line 2, column 1, and then a
`TOKEN_EOF` token: the comment gives no token. -/
theorem line_comment_identifier_undefined :
    lex_next_token_defined (create_lexer (bytes "x // comment\ny")) = false ∧
    lookup_keyword_defined (bytes "x") = false ∧
    lex_next_token_defined (create_lexer (bytes "if // comment\nelse")) = true ∧
    nth_token 0 (create_lexer (bytes "if // comment\nelse")) = ⟨TOKEN_IF, bytes "if", 1, 1⟩ ∧
    lex_next_token_defined (nth_lexer 1 (create_lexer (bytes "if // comment\nelse"))) = true ∧
    nth_token 1 (create_lexer (bytes "if // comment\nelse"))
      = ⟨TOKEN_ELSE, bytes "else", 2, 1⟩ ∧
    (nth_token 2 (create_lexer (bytes "if // comment\nelse"))).type = TOKEN_EOF := by
  decide

/-! ## Block comments -/

theorem skip_block_loop_at_eof (f : Nat) (lexer : Lexer) (h : lexer.current_char = EOF) :
    skip_block_loop f lexer = lexer := by
  cases f <;> simp [skip_block_loop, h]

theorem not_infix_tail (c : Nat) (l : List Nat) (h : ¬ [42, 47] <:+: c :: l) :
    ¬ [42, 47] <:+: l := by
  intro hi
  exact h (hi.trans (List.suffix_cons c l).isInfix)

theorem not_infix_star_head (l : List Nat) (h : ¬ [42, 47] <:+: 42 :: l) :
    (file_get l).1 ≠ 47 := by
  cases l with
  | nil => simp [file_get, EOF]
  | cons d l =>
    simp only [file_get]
    intro hd
    have hd' : d = 47 := by omega
    subst hd'
    exact h ⟨[], l, by simp⟩

theorem skip_block_loop_closed (pre : List Nat) :
    ∀ (post : List Nat) (lexer : Lexer) (f : Nat),
      pending lexer (pre ++ 42 :: 47 :: post) → ¬ [42, 47] <:+: pre ++ [42] →
      pre.length < f → pending (skip_block_loop f lexer) post := by
  induction pre with
  | nil =>
    intro post lexer f hp _ hf
    obtain ⟨f, rfl⟩ : ∃ g, f = g + 1 := ⟨f - 1, by simp at hf; omega⟩
    have h1 : lexer.current_char = 42 := (pending_cons lexer 42 _ hp).1
    have hp1 := (pending_cons lexer 42 _ hp).2
    have h2 : (lex_advance lexer).current_char = 47 := (pending_cons _ 47 _ hp1).1
    have hp2 := (pending_cons _ 47 _ hp1).2
    simp only [skip_block_loop]
    rw [if_pos (by rw [h1]; decide), if_pos h1, if_pos h2]
    exact hp2
  | cons c pre ih =>
    intro post lexer f hp hno hf
    obtain ⟨f, rfl⟩ : ∃ g, f = g + 1 := ⟨f - 1, by simp at hf; omega⟩
    obtain ⟨hc, hp1⟩ := pending_cons lexer c _ hp
    have hne : lexer.current_char ≠ EOF := by rw [hc]; exact cast_ne_EOF c
    have hno' : ¬ [42, 47] <:+: pre ++ [42] := not_infix_tail c _ hno
    have hrec := ih post (lex_advance lexer) f hp1 hno' (by simp at hf; omega)
    simp only [skip_block_loop]
    rw [if_pos hne]
    by_cases h42 : lexer.current_char = 42
    · rw [if_pos h42]
      have hc42 : c = 42 := by rw [hc] at h42; omega
      subst hc42
      have hnext : (lex_advance lexer).current_char ≠ 47 := by
        rw [hp1.1]
        cases pre with
        | nil => simp [file_get]
        | cons d pre =>
          intro hd
          have hd' : d = 47 := by
            have : ((d : Nat) : Int) = 47 := hd
            omega
          subst hd'
          exact hno ⟨[], pre ++ [42], by simp⟩
      rw [if_neg hnext]
      exact hrec
    · rw [if_neg h42]
      exact hrec


theorem skip_block_loop_open (content : List Nat) :
    ∀ (lexer : Lexer) (f : Nat),
      pending lexer content → ¬ [42, 47] <:+: content → content.length ≤ f →
      pending (skip_block_loop f lexer) [] := by
  induction content with
  | nil =>
    intro lexer f hp _ _
    rw [skip_block_loop_at_eof f lexer hp.1]
    exact hp
  | cons c content ih =>
    intro lexer f hp hno hf
    obtain ⟨f, rfl⟩ : ∃ g, f = g + 1 := ⟨f - 1, by simp at hf; omega⟩
    obtain ⟨hc, hp1⟩ := pending_cons lexer c _ hp
    have hne : lexer.current_char ≠ EOF := by rw [hc]; exact cast_ne_EOF c
    have hrec := ih (lex_advance lexer) f hp1 (not_infix_tail c _ hno) (by simp at hf; omega)
    simp only [skip_block_loop]
    rw [if_pos hne]
    by_cases h42 : lexer.current_char = 42
    · rw [if_pos h42]
      have hc42 : c = 42 := by rw [hc] at h42; omega
      subst hc42
      have hnext : (lex_advance lexer).current_char ≠ 47 := by
        rw [hp1.1]; exact not_infix_star_head _ hno
      rw [if_neg hnext]
      exact hrec
    · rw [if_neg h42]
      exact hrec

theorem skip_comments_at_block (lexer : Lexer) (content : List Nat)
    (hcur : lexer.current_char = 47) (hfile : lexer.file = 42 :: content) :
    skip_comments lexer =
      skip_block_loop ((lex_advance (lex_advance lexer)).file.length + 1)
        (lex_advance (lex_advance lexer)) ∧
    pending (lex_advance (lex_advance lexer)) content ∧
    at_comment lexer = true := by
  have hp : pending lexer (47 :: 42 :: content) := pending_of lexer 47 _ hcur hfile
  have hp1 := (pending_cons lexer 47 _ hp).2
  have h1 : (lex_advance lexer).current_char = 42 := (pending_cons _ 42 _ hp1).1
  have hp2 := (pending_cons _ 42 _ hp1).2
  refine ⟨?_, hp2, ?_⟩
  · simp only [skip_comments]
    rw [if_pos hcur, if_neg (by rw [h1]; decide), if_pos h1]
  · simp only [at_comment, hcur, hfile, file_peek]
    decide

/-- C11: at the opener `/*` of a block comment, `skip_comments` leaves the lexer
on the text that follows the first `*/` starting after the opener; when the
content holds no `*/` it leaves the lexer at end of input, and `lex_next_token`
returns a `TOKEN_EOF` token. -/
theorem skip_comments_block (lexer : Lexer) (content : List Nat)
    (hcur : lexer.current_char = 47) (hfile : lexer.file = 42 :: content) :
    (∀ pre post, content = pre ++ 42 :: 47 :: post → ¬ [42, 47] <:+: pre ++ [42] →
      pending (skip_comments lexer) post) ∧
    (¬ [42, 47] <:+: content →
      pending (skip_comments lexer) [] ∧ (lex_next_token lexer).1.type = TOKEN_EOF) := by
  obtain ⟨hsk, hp2, hcm⟩ := skip_comments_at_block lexer content hcur hfile
  have hflen := pending_file_length _ _ hp2
  constructor
  · intro pre post hcontent hfirst
    rw [hsk]
    subst hcontent
    exact skip_block_loop_closed pre post _ _ hp2 hfirst (by rw [hflen]; simp; omega)
  · intro hnone
    have hend : pending (skip_comments lexer) [] := by
      rw [hsk]
      exact skip_block_loop_open content _ _ hp2 hnone (by rw [hflen]; omega)
    refine ⟨hend, ?_⟩
    have hw : skip_whitespace lexer = lexer := skip_whitespace_id lexer (by rw [hcur]; decide)
    rw [lex_next_token_eq, hw, if_neg (by rw [hcur]; decide), if_pos hcm,
      lex_next_token_at_eof _ hend.1]
    rfl

/-- The witness of C11: `/***/x` closes at its last two characters and leaves
`x`; `/*/` does not close and runs to end of input. -/
theorem skip_comments_block_witness :
    pending (skip_comments (create_lexer (bytes "/***/x"))) (bytes "x") ∧
    pending (skip_comments (create_lexer (bytes "/*/"))) [] ∧
    (lex_next_token (create_lexer (bytes "/*/"))).1.type = TOKEN_EOF :=
  ⟨(skip_comments_block (create_lexer (bytes "/***/x")) (bytes "**/x") (by decide) (by decide)).1
      [42] (bytes "x") (by decide) (by decide),
    (skip_comments_block (create_lexer (bytes "/*/")) (bytes "/") (by decide) (by decide)).2
      (by decide)⟩

/-! ## Integer literals -/

theorem isdigit_bound (c : Nat) (h : isdigit (c : Int) = true) :
    48 ≤ c ∧ c ≤ 57 := by
  simp only [isdigit, Bool.and_eq_true, decide_eq_true_eq] at h
  omega

theorem lex_number_loop_stop (f : Nat) (acc : List Nat) (lexer : Lexer)
    (h : isdigit lexer.current_char = false) :
    lex_number_loop f acc lexer = (acc, lexer) := by
  cases f with
  | zero => rfl
  | succ n => simp only [lex_number_loop]; rw [if_neg (by rw [h]; decide)]

theorem lex_number_loop_run (run : List Nat) :
    ∀ (acc tail : List Nat) (lexer : Lexer) (f : Nat),
      pending lexer (run ++ tail) →
      (∀ c ∈ run, isdigit (c : Int) = true) →
      isdigit (file_get tail).1 = false →
      acc.length ≤ MAX_LEXEME_LENGTH - 1 → run.length ≤ f →
      (lex_number_loop f acc lexer).1 = (acc ++ run).take (MAX_LEXEME_LENGTH - 1) ∧
      pending (lex_number_loop f acc lexer).2 tail ∧
      (lex_number_loop f acc lexer).2.line = lexer.line ∧
      (lex_number_loop f acc lexer).2.column = lexer.column + run.length := by
  induction run with
  | nil =>
    intro acc tail lexer f hp _ ht hlen _
    have hc : isdigit lexer.current_char = false := by
      rw [show lexer.current_char = (file_get tail).1 from hp.1]; exact ht
    rw [lex_number_loop_stop f acc lexer hc]
    refine ⟨?_, hp, rfl, rfl⟩
    simp only [List.append_nil]
    exact (List.take_of_length_le hlen).symm
  | cons c run ih =>
    intro acc tail lexer f hp hrun ht hlen hf
    obtain ⟨f, rfl⟩ : ∃ g, f = g + 1 := ⟨f - 1, by simp at hf; omega⟩
    obtain ⟨hc, hp1⟩ := pending_cons lexer c _ hp
    have hcd := hrun c (List.mem_cons_self _ _)
    obtain ⟨hlo, hhi⟩ := isdigit_bound c hcd
    have hline : (lex_advance lexer).line = lexer.line := by
      simp only [lex_advance, hc]; rw [if_neg (by omega)]
    have hcol : (lex_advance lexer).column = lexer.column + 1 := by
      simp only [lex_advance, hc]; rw [if_neg (by omega)]
    simp only [lex_number_loop, hc]
    rw [if_pos hcd, to_char_cast c (by omega)]
    by_cases hl : acc.length < MAX_LEXEME_LENGTH - 1
    · rw [if_pos hl]
      obtain ⟨h1, h2, h3, h4⟩ := ih (acc ++ [c]) tail (lex_advance lexer) f hp1
        (fun d hd => hrun d (List.mem_cons_of_mem _ hd)) ht
        (by simp; omega) (by simp at hf; omega)
      refine ⟨by simpa using h1, h2, by rw [h3, hline], ?_⟩
      rw [h4, hcol]; simp; omega
    · rw [if_neg hl]
      obtain ⟨h1, h2, h3, h4⟩ := ih acc tail (lex_advance lexer) f hp1
        (fun d hd => hrun d (List.mem_cons_of_mem _ hd)) ht hlen (by simp at hf; omega)
      have hfull : acc.length = MAX_LEXEME_LENGTH - 1 := by omega
      refine ⟨?_, h2, by rw [h3, hline], ?_⟩
      · rw [h1, List.take_append_of_le_length (le_of_eq hfull.symm),
          List.take_append_of_le_length (le_of_eq hfull.symm)]
      · rw [h4, hcol]; simp; omega

/-- C12: at the first digit of a run of `d ≥ 1` decimal digits that is followed
by a non-digit or by end of input, `lex_next_token` returns a `TOKEN_INT` token
whose lexeme is the first `min d 255` digits, at the position of the first
digit, and leaves the lexer on the text just after the whole run. -/
theorem lex_number_run (lexer : Lexer) (run tail : List Nat)
    (hp : pending lexer (run ++ tail)) (hne : run ≠ [])
    (hrun : ∀ c ∈ run, isdigit (c : Int) = true)
    (htail : isdigit (file_get tail).1 = false) :
    (lex_next_token lexer).1 =
      ⟨TOKEN_INT, run.take (min run.length 255), lexer.line, lexer.column⟩ ∧
    pending (lex_next_token lexer).2 tail := by
  obtain ⟨c, rest, rfl⟩ := List.exists_cons_of_ne_nil hne
  obtain ⟨hc, _⟩ := pending_cons lexer c _ hp
  have hcd := hrun c (List.mem_cons_self _ _)
  obtain ⟨hlo, hhi⟩ := isdigit_bound c hcd
  have hdig : isdigit lexer.current_char = true := by rw [hc]; exact hcd
  have hflen := pending_file_length _ _ hp
  obtain ⟨h1, h2, h3, _⟩ := lex_number_loop_run (c :: rest) [] tail lexer
    (lexer.file.length + 1) hp hrun htail (by simp) (by rw [hflen]; simp)
  have hw : skip_whitespace lexer = lexer :=
    skip_whitespace_id lexer (by rw [hc]; simp [isspace]; omega)
  have hcm : at_comment lexer = false := by
    have : ¬ (c : Int) = 47 := by omega
    simp [at_comment, hc, this]
  have halpha : ¬ (isalpha lexer.current_char = true ∨ lexer.current_char = 95) := by
    rw [hc]; simp [isalpha]; omega
  have e : lex_next_token lexer = lex_number lexer := by
    rw [lex_next_token_eq, hw, if_neg (by rw [hc]; exact cast_ne_EOF c), hcm]
    simp only [lex_dispatch, Bool.false_eq_true, if_false]
    rw [if_neg halpha, if_pos hdig]
  have hnul : c_string ((c :: rest).take (MAX_LEXEME_LENGTH - 1))
      = (c :: rest).take (MAX_LEXEME_LENGTH - 1) := by
    apply c_string_of_no_nul
    intro b hb
    have := isdigit_bound b (hrun b (List.mem_of_mem_take hb))
    omega
  rw [e]
  simp only [lex_number]
  refine ⟨?_, h2⟩
  rw [h1, h3]
  simp only [List.nil_append]
  rw [hnul]
  simp only [create_token, MAX_LEXEME_LENGTH]
  congr 1
  by_cases hl : (c :: rest).length ≤ 255
  · rw [min_eq_left hl, List.take_of_length_le hl, List.take_of_length_le (le_refl _)]
  · rw [min_eq_right (by omega)]

/-- The witness of C12: the input `-12` gives a `TOKEN_MINUS` token and then a
`TOKEN_INT` token with lexeme `12`. -/
theorem lex_number_run_witness :
    nth_token 0 (create_lexer (bytes "-12")) = ⟨TOKEN_MINUS, bytes "-", 1, 1⟩ ∧
    pending (nth_lexer 1 (create_lexer (bytes "-12"))) (bytes "12" ++ []) ∧
    nth_token 1 (create_lexer (bytes "-12")) = ⟨TOKEN_INT, bytes "12", 1, 2⟩ ∧
    pending (nth_lexer 2 (create_lexer (bytes "-12"))) [] :=
  ⟨by decide, ⟨by decide, by decide⟩,
    lex_number_run (nth_lexer 1 (create_lexer (bytes "-12"))) (bytes "12") []
      ⟨by decide, by decide⟩ (by decide) (by decide) (by decide)⟩

/-! ## The pushback buffer -/

theorem lex_unget_token_index_le (lexer : Lexer) (t : Token) (s : UngetState)
    (h : s.unget_buffer_index ≤ MAX_UNGET_TOKENS) :
    (lex_unget_token lexer t s).unget_buffer_index ≤ MAX_UNGET_TOKENS := by
  unfold lex_unget_token
  split
  · simp only; omega
  · exact h

theorem unget_pushes_index_le (pushes : List (Lexer × Token)) (s : UngetState)
    (h : s.unget_buffer_index ≤ MAX_UNGET_TOKENS) :
    (pushes.foldl (fun st p => lex_unget_token p.1 p.2 st) s).unget_buffer_index
      ≤ MAX_UNGET_TOKENS := by
  induction pushes generalizing s with
  | nil => exact h
  | cons p ps ih => exact ih _ (lex_unget_token_index_le p.1 p.2 s h)

/-- C13: on a pushback buffer that holds `n` tokens, `lex_unget_token` with
`n < 256` makes the size `n + 1`, puts the token in slot `n` and leaves the
slots below unchanged; with `n = 256` it leaves the whole state unchanged.  After
any sequence of pushes from the initial state the size is at most 256. -/
theorem lex_unget_token_bounded (lexer : Lexer) (t : Token) (s : UngetState)
    (hlen : s.unget_buffer.length = MAX_UNGET_TOKENS) :
    (s.unget_buffer_index < MAX_UNGET_TOKENS →
      (lex_unget_token lexer t s).unget_buffer_index = s.unget_buffer_index + 1 ∧
      (lex_unget_token lexer t s).unget_buffer[s.unget_buffer_index]? = some (some t) ∧
      (lex_unget_token lexer t s).unget_buffer.length = MAX_UNGET_TOKENS ∧
      ∀ i, i < s.unget_buffer_index →
        (lex_unget_token lexer t s).unget_buffer[i]? = s.unget_buffer[i]?) ∧
    (s.unget_buffer_index = MAX_UNGET_TOKENS → lex_unget_token lexer t s = s) ∧
    (∀ pushes : List (Lexer × Token),
      (pushes.foldl (fun st p => lex_unget_token p.1 p.2 st) unget_initial).unget_buffer_index
        ≤ MAX_UNGET_TOKENS) := by
  refine ⟨?_, ?_, ?_⟩
  · intro hlt
    have e : lex_unget_token lexer t s =
        { unget_buffer := s.unget_buffer.set s.unget_buffer_index (some t)
          unget_buffer_index := s.unget_buffer_index + 1 } := by
      unfold lex_unget_token; rw [if_pos hlt]
    rw [e]
    refine ⟨rfl, ?_, ?_, ?_⟩
    · show (s.unget_buffer.set s.unget_buffer_index (some t))[s.unget_buffer_index]? = _
      rw [List.getElem?_set_self (by rw [hlen]; exact hlt)]
    · show (s.unget_buffer.set s.unget_buffer_index (some t)).length = _
      rw [List.length_set, hlen]
    · intro i hi
      show (s.unget_buffer.set s.unget_buffer_index (some t))[i]? = _
      rw [List.getElem?_set_ne (by omega)]
  · intro heq
    simp only [lex_unget_token]
    rw [if_neg (by omega)]
  · intro pushes
    exact unget_pushes_index_le pushes unget_initial (Nat.zero_le _)

/-- The witness of C13: one push on the initial state, and a push on a full
buffer. -/
theorem lex_unget_token_bounded_witness :
    (lex_unget_token (create_lexer []) ⟨TOKEN_EOF, bytes "EOF", 1, 1⟩
      unget_initial).unget_buffer_index = 1 ∧
    (lex_unget_token (create_lexer []) ⟨TOKEN_EOF, bytes "EOF", 1, 1⟩
      unget_initial).unget_buffer[0]? = some (some ⟨TOKEN_EOF, bytes "EOF", 1, 1⟩) ∧
    lex_unget_token (create_lexer []) ⟨TOKEN_EOF, bytes "EOF", 1, 1⟩
        ⟨List.replicate MAX_UNGET_TOKENS none, MAX_UNGET_TOKENS⟩
      = ⟨List.replicate MAX_UNGET_TOKENS none, MAX_UNGET_TOKENS⟩ :=
  ⟨((lex_unget_token_bounded (create_lexer []) ⟨TOKEN_EOF, bytes "EOF", 1, 1⟩ unget_initial
      (by decide)).1 (by decide)).1,
    ((lex_unget_token_bounded (create_lexer []) ⟨TOKEN_EOF, bytes "EOF", 1, 1⟩ unget_initial
      (by decide)).1 (by decide)).2.1,
    (lex_unget_token_bounded (create_lexer []) ⟨TOKEN_EOF, bytes "EOF", 1, 1⟩
      ⟨List.replicate MAX_UNGET_TOKENS none, MAX_UNGET_TOKENS⟩
      (by decide)).2.1 rfl⟩

/-! ## Line numbers along the token stream -/

theorem line_advance_le (lexer : Lexer) : lexer.line ≤ (lex_advance lexer).line := by
  simp only [lex_advance]
  split <;> omega

theorem line_skip_whitespace_loop (f : Nat) (lexer : Lexer) :
    lexer.line ≤ (skip_whitespace_loop f lexer).line := by
  induction f generalizing lexer with
  | zero => exact le_refl _
  | succ n ih =>
    simp only [skip_whitespace_loop]
    split
    · exact le_trans (line_advance_le lexer) (ih _)
    · exact le_refl _

theorem line_skip_line_loop (f : Nat) (lexer : Lexer) :
    lexer.line ≤ (skip_line_loop f lexer).line := by
  induction f generalizing lexer with
  | zero => exact le_refl _
  | succ n ih =>
    simp only [skip_line_loop]
    split
    · exact le_trans (line_advance_le lexer) (ih _)
    · exact le_refl _

theorem line_skip_block_loop (f : Nat) (lexer : Lexer) :
    lexer.line ≤ (skip_block_loop f lexer).line := by
  induction f generalizing lexer with
  | zero => exact le_refl _
  | succ n ih =>
    simp only [skip_block_loop]
    split
    · split
      · split
        · exact le_trans (line_advance_le lexer) (line_advance_le _)
        · exact le_trans (line_advance_le lexer) (ih _)
      · exact le_trans (line_advance_le lexer) (ih _)
    · exact le_refl _

theorem line_skip_comments (lexer : Lexer) : lexer.line ≤ (skip_comments lexer).line := by
  have h1 := line_advance_le lexer
  unfold skip_comments
  split
  · simp only
    split
    · split
      · exact le_trans h1 (le_trans (line_skip_line_loop _ _) (line_advance_le _))
      · exact le_trans h1 (line_skip_line_loop _ _)
    · split
      · exact le_trans h1 (le_trans (line_advance_le _) (line_skip_block_loop _ _))
      · exact h1
  · exact le_refl _

theorem line_lex_identifier_loop (f : Nat) (lexeme : List Nat) (lexer : Lexer) :
    lexer.line ≤ (lex_identifier_loop f lexeme lexer).2.line := by
  induction f generalizing lexeme lexer with
  | zero => exact le_refl _
  | succ n ih =>
    simp only [lex_identifier_loop]
    split
    · split
      · exact le_trans (line_advance_le lexer) (ih _ _)
      · exact le_refl _
    · exact le_refl _

theorem line_lex_number_loop (f : Nat) (lexeme : List Nat) (lexer : Lexer) :
    lexer.line ≤ (lex_number_loop f lexeme lexer).2.line := by
  induction f generalizing lexeme lexer with
  | zero => exact le_refl _
  | succ n ih =>
    simp only [lex_number_loop]
    split
    · exact le_trans (line_advance_le lexer) (ih _ _)
    · exact le_refl _

theorem line_lex_string_loop (f : Nat) (lexeme : List Nat) (lexer : Lexer) :
    lexer.line ≤ (lex_string_loop f lexeme lexer).2.line := by
  induction f generalizing lexeme lexer with
  | zero => exact le_refl _
  | succ n ih =>
    simp only [lex_string_loop]
    split
    · split
      · exact le_trans (line_advance_le lexer) (le_trans (line_advance_le _) (ih _ _))
      · split
        · exact le_trans (line_advance_le lexer) (ih _ _)
        · exact le_refl _
    · exact le_refl _

/-- Every scanner returns a token whose line is the line of the lexer after the
scan, which is not less than the line before it. -/
theorem line_lex_dispatch (lexer : Lexer) :
    (lex_dispatch lexer).1.line = (lex_dispatch lexer).2.line ∧
    lexer.line ≤ (lex_dispatch lexer).2.line := by
  have h1 := line_advance_le lexer
  unfold lex_dispatch
  simp only
  split
  · exact ⟨rfl, le_trans h1 (line_lex_identifier_loop _ _ _)⟩
  · split
    · exact ⟨rfl, line_lex_number_loop _ _ _⟩
    · split
      · simp only [lex_string]
        split
        · exact ⟨rfl, le_trans h1 (le_trans (line_lex_string_loop _ _ _) (line_advance_le _))⟩
        · exact ⟨rfl, le_trans h1 (line_lex_string_loop _ _ _)⟩
      · exact ⟨rfl, h1⟩

theorem line_lex_next_token_loop (f : Nat) (lexer : Lexer) :
    (lex_next_token_loop f lexer).1.line = (lex_next_token_loop f lexer).2.line ∧
    lexer.line ≤ (lex_next_token_loop f lexer).2.line := by
  induction f generalizing lexer with
  | zero =>
    simp only [lex_next_token_loop]
    have hw := line_skip_whitespace_loop (lexer.file.length + 1) lexer
    split
    · exact ⟨rfl, hw⟩
    · exact ⟨(line_lex_dispatch _).1, le_trans hw (line_lex_dispatch _).2⟩
  | succ n ih =>
    simp only [lex_next_token_loop]
    have hw := line_skip_whitespace_loop (lexer.file.length + 1) lexer
    split
    · exact ⟨rfl, hw⟩
    · split
      · exact ⟨(ih _).1, le_trans hw (le_trans (line_skip_comments _) (ih _).2)⟩
      · exact ⟨(line_lex_dispatch _).1, le_trans hw (line_lex_dispatch _).2⟩

theorem nth_token_line (j : Nat) (lexer : Lexer) :
    (nth_token j lexer).line = (nth_lexer (j + 1) lexer).line := by
  rw [nth_lexer_succ]
  exact (line_lex_next_token_loop _ _).1

theorem nth_lexer_line_le (j : Nat) (lexer : Lexer) :
    (nth_lexer j lexer).line ≤ (nth_lexer (j + 1) lexer).line := by
  rw [nth_lexer_succ]
  exact (line_lex_next_token_loop _ _).2

/-- C14: along the tokens that successive calls of `lex_next_token` return, the
line number never decreases: the line of token `j + 1` is at most the line of
token `j + 2`, and so the line of any token is at most the line of any later
one. -/
theorem token_lines_nondecreasing (lexer : Lexer) (j d : Nat) :
    (nth_token j lexer).line ≤ (nth_token (j + 1) lexer).line ∧
    (nth_token j lexer).line ≤ (nth_token (j + d) lexer).line := by
  have step : ∀ i, (nth_token i lexer).line ≤ (nth_token (i + 1) lexer).line := by
    intro i
    rw [nth_token_line i, nth_token_line (i + 1)]
    exact nth_lexer_line_le (i + 1) lexer
  refine ⟨step j, ?_⟩
  induction d with
  | zero => exact le_refl _
  | succ d ih => exact le_trans ih (step (j + d))

/-! ## The keyword table and the release of the lexer -/

/-- The entries that the lookup compares with the lexeme are an initial part of
the table. -/
theorem lookup_keyword_compared_prefix (lexeme : List Nat) (ks : List Keyword) :
    lookup_keyword_compared lexeme ks <+: ks := by
  induction ks with
  | nil => exact List.prefix_refl _
  | cons k ks ih =>
    simp only [lookup_keyword_compared]
    split
    · exact ⟨ks, rfl⟩
    · exact (List.prefix_cons_inj k).mpr ih

/-- C16: `keywords` is declared with `KEYWORD_COUNT = 25` entries and 17 of them
have a spelling; looking up the lexeme `x` compares it with all 25 entries, 8 of
which have no spelling. -/
theorem keyword_table_size_mismatch :
    KEYWORD_COUNT = 25 ∧ keywords.length = KEYWORD_COUNT ∧
    (keywords.filter (fun k => k.word.isSome)).length = 17 ∧
    (lookup_keyword_compared (bytes "x") (keywords.take KEYWORD_COUNT)).length = 25 ∧
    ((lookup_keyword_compared (bytes "x") (keywords.take KEYWORD_COUNT)).filter
      (fun k => k.word.isNone)).length = 8 := by
  decide

/-- C17: `destroy_lexer` on a live lexer deletes the stream that `create_lexer`
borrowed, before it deletes the lexer record. -/
theorem destroy_lexer_deletes_borrowed_file :
    destroy_lexer (some (create_lexer (bytes "x")))
      = [Object.borrowed_file, Object.lexer_record] := by
  decide

/-! ## Unrecognized characters -/

theorem lex_string_loop_overflow (run : List Nat) :
    ∀ (acc : List Nat) (c : Nat) (tail : List Nat) (lexer : Lexer) (f : Nat),
      pending lexer (run ++ c :: tail) →
      (∀ b ∈ run, b ≠ 34 ∧ b ≠ 92) → c ≠ 34 ∧ c ≠ 92 →
      acc.length + run.length = MAX_LEXEME_LENGTH - 1 → run.length < f →
      pending (lex_string_loop f acc lexer).2 (c :: tail) := by
  induction run with
  | nil =>
    intro acc c tail lexer f hp _ hc hlen hf
    obtain ⟨f, rfl⟩ : ∃ g, f = g + 1 := ⟨f - 1, by simp at hf; omega⟩
    have hcur : lexer.current_char = (c : Int) := (pending_cons lexer c _ hp).1
    have hne : ¬ (c : Int) = 34 ∧ ¬ (c : Int) = EOF := by
      unfold EOF; omega
    have hne92 : ¬ (c : Int) = 92 := by omega
    have hl : ¬ acc.length < MAX_LEXEME_LENGTH - 1 := by simp at hlen; omega
    simp only [lex_string_loop, hcur, ne_eq]
    rw [if_pos hne, if_neg hne92, if_neg hl]
    exact hp
  | cons b run ih =>
    intro acc c tail lexer f hp hrun hc hlen hf
    obtain ⟨f, rfl⟩ : ∃ g, f = g + 1 := ⟨f - 1, by simp at hf; omega⟩
    obtain ⟨hcur, hp1⟩ := pending_cons lexer b _ hp
    have hb := hrun b (List.mem_cons_self _ _)
    have hne : ¬ (b : Int) = 34 ∧ ¬ (b : Int) = EOF := by
      unfold EOF; omega
    have hne92 : ¬ (b : Int) = 92 := by omega
    have hl : acc.length < MAX_LEXEME_LENGTH - 1 := by simp at hlen; omega
    simp only [lex_string_loop, hcur, ne_eq]
    rw [if_pos hne, if_neg hne92, if_pos hl]
    exact ih _ c tail (lex_advance lexer) f hp1
      (fun d hd => hrun d (List.mem_cons_of_mem _ hd)) hc
      (by simp at hlen ⊢; omega) (by simp at hf; omega)

/-- C19: at an opening quote that is followed by 255 characters and one more,
none of them a quote or a backslash, `lex_next_token` returns a `TOKEN_ERROR`
token with the lexeme `Unterminated string` and leaves the lexer on the 256th
content character, whatever follows it (a closing quote included), so that the
rest of the literal is scanned by the next calls. -/
theorem lex_string_overflow (lexer : Lexer) (run : List Nat) (c : Nat) (tail : List Nat)
    (hcur : lexer.current_char = 34) (hfile : lexer.file = run ++ c :: tail)
    (hlen : run.length = MAX_LEXEME_LENGTH - 1)
    (hrun : ∀ b ∈ run, b ≠ 34 ∧ b ≠ 92) (hc : c ≠ 34 ∧ c ≠ 92) :
    (lex_next_token lexer).1.type = TOKEN_ERROR ∧
    (lex_next_token lexer).1.lexeme = bytes "Unterminated string" ∧
    (lex_next_token lexer).1.column = lexer.column ∧
    pending (lex_next_token lexer).2 (c :: tail) := by
  have hp : pending lexer (34 :: (run ++ c :: tail)) := pending_of lexer 34 _ hcur hfile
  have hp1 := (pending_cons lexer 34 _ hp).2
  have hflen := pending_file_length _ _ hp1
  have h2 := lex_string_loop_overflow run [] c tail (lex_advance lexer)
    ((lex_advance lexer).file.length + 1) hp1 hrun hc (by simpa using hlen)
    (by rw [hflen]; simp; omega)
  have hq : (lex_string_loop ((lex_advance lexer).file.length + 1) []
      (lex_advance lexer)).2.current_char = (c : Int) := (pending_cons _ c _ h2).1
  have hq34 : ¬ (lex_string_loop ((lex_advance lexer).file.length + 1) []
      (lex_advance lexer)).2.current_char = 34 := by rw [hq]; omega
  rw [lex_next_token_at_quote lexer hcur]
  simp only [lex_string]
  rw [if_neg hq34]
  exact ⟨rfl, rfl, rfl, h2⟩

/-- The witness of C19: a quote, 256 digits `1` and a closing quote.  The first
token is the error token, the second is the integer made of the 256th `1`, the
third is another error token, for the closing quote taken as an opening one. -/
theorem lex_string_overflow_witness :
    ((nth_token 0 (create_lexer (34 :: (List.replicate 255 49 ++ 49 :: [34])))).type
        = TOKEN_ERROR ∧
      (nth_token 0 (create_lexer (34 :: (List.replicate 255 49 ++ 49 :: [34])))).lexeme
        = bytes "Unterminated string" ∧
      (nth_token 0 (create_lexer (34 :: (List.replicate 255 49 ++ 49 :: [34])))).column = 1 ∧
      pending (nth_lexer 1 (create_lexer (34 :: (List.replicate 255 49 ++ 49 :: [34]))))
        (49 :: [34])) ∧
    nth_token 1 (create_lexer (34 :: (List.replicate 255 49 ++ 49 :: [34])))
      = ⟨TOKEN_INT, bytes "1", 1, 257⟩ ∧
    nth_token 2 (create_lexer (34 :: (List.replicate 255 49 ++ 49 :: [34])))
      = ⟨TOKEN_ERROR, bytes "Unterminated string", 1, 258⟩ :=
  ⟨lex_string_overflow (create_lexer (34 :: (List.replicate 255 49 ++ 49 :: [34])))
      (List.replicate 255 49) 49 [34] (by decide) (by decide) (by decide) (by decide)
      (by decide),
    by decide, by decide⟩

/-! ## The kind `TOKEN_INT` -/

theorem lookup_mem (w : List Nat) (t : TokenType) (table : List (List Nat × TokenType))
    (h : table.lookup w = some t) : (w, t) ∈ table := by
  induction table with
  | nil => simp at h
  | cons p table ih =>
    obtain ⟨k, v⟩ := p
    by_cases hk : w = k
    · subst hk
      simp only [List.lookup, beq_self_eq_true] at h
      cases h
      exact List.mem_cons_self _ _
    · have hk' : (w == k) = false := by simpa using hk
      simp only [List.lookup, hk'] at h
      exact List.mem_cons_of_mem _ (ih h)

theorem lookup_keyword_int (w : List Nat) (h : lookup_keyword w = TOKEN_INT) :
    w = bytes "int" := by
  rw [lookup_keyword_eq_spec, spec_keyword_kind] at h
  cases hl : reserved_words.lookup w with
  | none => rw [hl] at h; exact absurd h (by decide)
  | some t =>
    rw [hl] at h
    have ht : t = TOKEN_INT := h
    subst ht
    have hm := lookup_mem w TOKEN_INT reserved_words hl
    simp only [reserved_words, List.mem_cons, Prod.mk.injEq, List.mem_singleton,
      List.not_mem_nil, or_false, reduceCtorEq, and_false, and_true, false_or, or_false] at hm
    exact hm

theorem to_char_digit (c : Int) (h : isdigit c = true) :
    48 ≤ to_char c ∧ to_char c ≤ 57 := by
  simp only [isdigit, Bool.and_eq_true, decide_eq_true_eq] at h
  unfold to_char
  omega

theorem lex_number_loop_digits (f : Nat) :
    ∀ (acc : List Nat) (lexer : Lexer),
      (∀ b ∈ acc, 48 ≤ b ∧ b ≤ 57) →
      (∀ b ∈ (lex_number_loop f acc lexer).1, 48 ≤ b ∧ b ≤ 57) ∧
      acc.length ≤ (lex_number_loop f acc lexer).1.length := by
  induction f with
  | zero => intro acc lexer h; exact ⟨h, le_refl _⟩
  | succ n ih =>
    intro acc lexer h
    simp only [lex_number_loop]
    split
    · next hd =>
      split
      · have hacc : ∀ b ∈ acc ++ [to_char lexer.current_char], 48 ≤ b ∧ b ≤ 57 := by
          intro b hb
          rcases List.mem_append.mp hb with hb | hb
          · exact h b hb
          · rw [List.mem_singleton.mp hb]; exact to_char_digit _ hd
        obtain ⟨h1, h2⟩ := ih _ (lex_advance lexer) hacc
        exact ⟨h1, by simp at h2; omega⟩
      · exact ih _ _ h
    · exact ⟨h, le_refl _⟩

theorem lex_number_lexeme (lexer : Lexer) (hd : isdigit lexer.current_char = true) :
    (lex_number lexer).1.lexeme ≠ [] ∧
    ∀ b ∈ (lex_number lexer).1.lexeme, 48 ≤ b ∧ b ≤ 57 := by
  have hl : ([] : List Nat).length < MAX_LEXEME_LENGTH - 1 := by decide
  have hacc : ∀ b ∈ [to_char lexer.current_char], 48 ≤ b ∧ b ≤ 57 := by
    intro b hb; rw [List.mem_singleton.mp hb]; exact to_char_digit _ hd
  obtain ⟨h1, h2⟩ := lex_number_loop_digits lexer.file.length
    [to_char lexer.current_char] (lex_advance lexer) hacc
  have hnul : c_string (lex_number_loop lexer.file.length [to_char lexer.current_char]
      (lex_advance lexer)).1 = (lex_number_loop lexer.file.length
        [to_char lexer.current_char] (lex_advance lexer)).1 :=
    c_string_of_no_nul _ (fun b hb => by have := h1 b hb; omega)
  simp only [lex_number, lex_number_loop, create_token]
  rw [if_pos hd, if_pos hl]
  simp only [List.nil_append]
  rw [hnul]
  refine ⟨?_, h1⟩
  intro he
  rw [he] at h2
  simp at h2

theorem ite_fst_ne_int (c : Prop) [Decidable c] (p q : TokenType × List Nat)
    (hp : p.1 ≠ TOKEN_INT) (hq : q.1 ≠ TOKEN_INT) : (if c then p else q).1 ≠ TOKEN_INT := by
  split <;> assumption

theorem single_char_token_ne_int (c : Int) : (single_char_token c).1 ≠ TOKEN_INT := by
  unfold single_char_token
  repeat' apply ite_fst_ne_int
  all_goals exact fun h => TokenType.noConfusion h

theorem lex_dispatch_int (lexer : Lexer) (h : (lex_dispatch lexer).1.type = TOKEN_INT) :
    (lex_dispatch lexer).1.lexeme = bytes "int" ∨
    ((lex_dispatch lexer).1.lexeme ≠ [] ∧
      ∀ b ∈ (lex_dispatch lexer).1.lexeme, 48 ≤ b ∧ b ≤ 57) := by
  unfold lex_dispatch at h ⊢
  simp only at h ⊢
  split
  · next hi =>
    rw [if_pos hi] at h
    exact Or.inl (lookup_keyword_int _ h)
  · next hi =>
    rw [if_neg hi] at h
    split
    · next hd => exact Or.inr (lex_number_lexeme lexer hd)
    · next hd =>
      rw [if_neg hd] at h
      split
      · next hq =>
        rw [if_pos hq] at h
        simp only [lex_string] at h
        split at h <;> exact absurd h (fun e => TokenType.noConfusion e)
      · next hq =>
        rw [if_neg hq] at h
        exact absurd h (single_char_token_ne_int _)

theorem lex_next_token_loop_int (f : Nat) (lexer : Lexer)
    (h : (lex_next_token_loop f lexer).1.type = TOKEN_INT) :
    (lex_next_token_loop f lexer).1.lexeme = bytes "int" ∨
    ((lex_next_token_loop f lexer).1.lexeme ≠ [] ∧
      ∀ b ∈ (lex_next_token_loop f lexer).1.lexeme, 48 ≤ b ∧ b ≤ 57) := by
  induction f generalizing lexer with
  | zero =>
    simp only [lex_next_token_loop] at h ⊢
    split
    · next hc => rw [if_pos hc] at h; exact absurd h (fun e => TokenType.noConfusion e)
    · next hc => rw [if_neg hc] at h; exact lex_dispatch_int _ h
  | succ n ih =>
    simp only [lex_next_token_loop] at h ⊢
    split
    · next hc => rw [if_pos hc] at h; exact absurd h (fun e => TokenType.noConfusion e)
    · next hc =>
      rw [if_neg hc] at h
      split
      · next hcm => rw [if_pos hcm] at h; exact ih _ h
      · next hcm => rw [if_neg hcm] at h; exact lex_dispatch_int _ h

/-- C20: every `TOKEN_INT` token that `lex_next_token` returns has the lexeme
`int` or a lexeme that is a non-empty string of decimal digits; both occur: the
input `int` and the input `1` give tokens of the kind `TOKEN_INT`. -/
theorem token_int_shared (lexer : Lexer) :
    ((lex_next_token lexer).1.type = TOKEN_INT →
      (lex_next_token lexer).1.lexeme = bytes "int" ∨
      ((lex_next_token lexer).1.lexeme ≠ [] ∧
        ∀ b ∈ (lex_next_token lexer).1.lexeme, 48 ≤ b ∧ b ≤ 57)) ∧
    (lex_next_token (create_lexer (bytes "int"))).1 = ⟨TOKEN_INT, bytes "int", 1, 1⟩ ∧
    (lex_next_token (create_lexer (bytes "1"))).1 = ⟨TOKEN_INT, bytes "1", 1, 1⟩ :=
  ⟨lex_next_token_loop_int _ lexer, by decide, by decide⟩

/-- The witness of C20: the token of the input `12` is a `TOKEN_INT` token, and
its lexeme is `int` or a non-empty string of digits. -/
theorem token_int_shared_witness :
    (lex_next_token (create_lexer (bytes "12"))).1.type = TOKEN_INT ∧
    ((lex_next_token (create_lexer (bytes "12"))).1.lexeme = bytes "int" ∨
      ((lex_next_token (create_lexer (bytes "12"))).1.lexeme ≠ [] ∧
        ∀ b ∈ (lex_next_token (create_lexer (bytes "12"))).1.lexeme, 48 ≤ b ∧ b ≤ 57)) :=
  ⟨by decide, (token_int_shared (create_lexer (bytes "12"))).1 (by decide)⟩

/-! ## The position rule of `lex_advance` -/

theorem spec_position_snoc (pre : List Nat) (b : Nat) :
    spec_line (pre ++ [b]) = (if b = 10 then spec_line pre + 1 else spec_line pre) ∧
    spec_column (pre ++ [b]) = (if b = 10 then 1 else spec_column pre + 1) := by
  unfold spec_line spec_column
  by_cases hb : b = 10
  · subst hb
    simp [List.count_append]
    omega
  · have hc : List.count 10 [b] = 0 := by
      rw [List.count_eq_zero]; simpa using fun h => hb h.symm
    simp [List.count_append, hb, hc, List.takeWhile_cons]
    omega

theorem lex_advance_iterate_position (pre : List Nat) :
    ∀ suf : List Nat,
      (Nat.iterate lex_advance pre.length (create_lexer (pre ++ suf))).line = spec_line pre ∧
      (Nat.iterate lex_advance pre.length (create_lexer (pre ++ suf))).column
        = spec_column pre ∧
      pending (Nat.iterate lex_advance pre.length (create_lexer (pre ++ suf))) suf := by
  induction pre using List.reverseRecOn with
  | nil =>
    intro suf
    exact ⟨rfl, rfl, pending_create_lexer suf⟩
  | append_singleton pre b ih =>
    intro suf
    obtain ⟨h1, h2, h3⟩ := ih (b :: suf)
    have e : pre ++ [b] ++ suf = pre ++ b :: suf := by simp
    obtain ⟨hc, hp⟩ := pending_cons _ b suf h3
    obtain ⟨s1, s2⟩ := spec_position_snoc pre b
    rw [e, List.length_append, List.length_singleton, Function.iterate_succ_apply']
    refine ⟨?_, ?_, hp⟩
    · simp only [lex_advance, hc, h1, s1]
      by_cases hb : b = 10
      · rw [if_pos hb, if_pos (by rw [hb]; rfl)]
      · rw [if_neg hb, if_neg (by omega)]
    · simp only [lex_advance, hc, h2, s2]
      by_cases hb : b = 10
      · rw [if_pos hb, if_pos (by rw [hb]; rfl)]
      · rw [if_neg hb, if_neg (by omega)]

theorem lex_advance_iterate_past_end (k : Nat) :
    ∀ lexer : Lexer, pending lexer [] →
      (Nat.iterate lex_advance k lexer).line = lexer.line ∧
      (Nat.iterate lex_advance k lexer).column = lexer.column + k ∧
      pending (Nat.iterate lex_advance k lexer) [] := by
  induction k with
  | zero => intro lexer hp; exact ⟨rfl, rfl, hp⟩
  | succ k ih =>
    intro lexer hp
    obtain ⟨h1, h2, h3⟩ := ih lexer hp
    have hc : (Nat.iterate lex_advance k lexer).current_char = EOF := h3.1
    have hne : ¬ (Nat.iterate lex_advance k lexer).current_char = 10 := by
      rw [hc]; decide
    rw [Function.iterate_succ_apply']
    refine ⟨?_, ?_, pending_nil_advance _ h3⟩
    · simp only [lex_advance]; rw [if_neg hne, h1]
    · simp only [lex_advance]; rw [if_neg hne, h2]; omega

/-- The counterexample of C18: on the three bytes quote, `a`, backslash the first
call of `lex_next_token` is defined and consumes the whole source, and it calls
`lex_advance` once more at end of input.  The lexer is then at end of input with
column 5, and the `TOKEN_EOF` token of the next call carries column 5, while the
position that follows the three bytes of the source is line 1, column 4. -/
theorem eof_column_past_end_of_source :
    lex_next_token_defined (create_lexer (bytes "\"a\\")) = true ∧
    (nth_lexer 1 (create_lexer (bytes "\"a\\"))).current_char = EOF ∧
    (nth_lexer 1 (create_lexer (bytes "\"a\\"))).file = [] ∧
    (nth_lexer 1 (create_lexer (bytes "\"a\\"))).line = 1 ∧
    (nth_lexer 1 (create_lexer (bytes "\"a\\"))).column = 5 ∧
    spec_line (bytes "\"a\\") = 1 ∧
    spec_column (bytes "\"a\\") = 4 ∧
    nth_token 1 (create_lexer (bytes "\"a\\")) = ⟨TOKEN_EOF, bytes "EOF", 1, 5⟩ := by
  decide

/-- C18, as amended: a fresh lexer is at line 1, column 1; `lex_advance` adds one
to the line and sets the column to 1 when the current character is a line feed,
and otherwise, also at end of input, keeps the line and adds one to the column;
so the line never decreases and the column becomes 1 exactly when the line is
incremented.  After the text `pre` of a source is consumed the lexer is at the
line and column of the character that follows `pre`; after `k` more calls of
`lex_advance` at the end of the source `pre` the column is `k` more than the
column that follows `pre`. -/
theorem lex_advance_position_rule (lexer : Lexer) (pre suf : List Nat) (k : Nat) :
    (create_lexer (pre ++ suf)).line = 1 ∧ (create_lexer (pre ++ suf)).column = 1 ∧
    (lexer.current_char = 10 →
      (lex_advance lexer).line = lexer.line + 1 ∧ (lex_advance lexer).column = 1) ∧
    (lexer.current_char ≠ 10 →
      (lex_advance lexer).line = lexer.line ∧
      (lex_advance lexer).column = lexer.column + 1) ∧
    lexer.line ≤ (lex_advance lexer).line ∧
    (1 ≤ lexer.column →
      ((lex_advance lexer).column = 1 ↔ (lex_advance lexer).line = lexer.line + 1)) ∧
    ((Nat.iterate lex_advance pre.length (create_lexer (pre ++ suf))).line = spec_line pre ∧
      (Nat.iterate lex_advance pre.length (create_lexer (pre ++ suf))).column
        = spec_column pre ∧
      pending (Nat.iterate lex_advance pre.length (create_lexer (pre ++ suf))) suf) ∧
    (Nat.iterate lex_advance (pre.length + k) (create_lexer pre)).current_char = EOF ∧
    (Nat.iterate lex_advance (pre.length + k) (create_lexer pre)).line = spec_line pre ∧
    (Nat.iterate lex_advance (pre.length + k) (create_lexer pre)).column
      = spec_column pre + k := by
  refine ⟨rfl, rfl, ?_, ?_, ?_, ?_, lex_advance_iterate_position pre suf, ?_⟩
  · intro h
    simp only [lex_advance]; rw [if_pos h, if_pos h]; exact ⟨rfl, rfl⟩
  · intro h
    simp only [lex_advance]; rw [if_neg h, if_neg h]; exact ⟨rfl, rfl⟩
  · simp only [lex_advance]; split <;> omega
  · intro hcol
    simp only [lex_advance]
    by_cases h : lexer.current_char = 10
    · rw [if_pos h, if_pos h]; simp
    · rw [if_neg h, if_neg h]; constructor <;> intro h' <;> omega
  · obtain ⟨h1, h2, h3⟩ := lex_advance_iterate_position pre []
    rw [List.append_nil] at h1 h2 h3
    obtain ⟨g1, g2, g3⟩ := lex_advance_iterate_past_end k _ h3
    rw [Nat.add_comm pre.length k, Function.iterate_add_apply]
    exact ⟨g3.1, by rw [g1, h1], by rw [g2, h2]⟩

/-- The witness of C18: after the four bytes `a`, `b`, line feed, `c` of the
source `ab`, line feed, `cd` the lexer is on `d`, at line 2, column 2; the two
advances over the line feed and over `c` follow the rule; two advances at the end
of the source `ab` leave the lexer at column 5, two more than the column 3 that
follows `ab`. -/
theorem lex_advance_position_rule_witness :
    (Nat.iterate lex_advance 4 (create_lexer (bytes "ab\nc" ++ bytes "d"))).line = 2 ∧
    (Nat.iterate lex_advance 4 (create_lexer (bytes "ab\nc" ++ bytes "d"))).column = 2 ∧
    (Nat.iterate lex_advance 4 (create_lexer (bytes "ab\nc" ++ bytes "d"))).current_char
      = 100 ∧
    (lex_advance (Nat.iterate lex_advance 2 (create_lexer (bytes "ab\ncd")))).line = 2 ∧
    (lex_advance (Nat.iterate lex_advance 2 (create_lexer (bytes "ab\ncd")))).column = 1 ∧
    (lex_advance (Nat.iterate lex_advance 3 (create_lexer (bytes "ab\ncd")))).line = 2 ∧
    (lex_advance (Nat.iterate lex_advance 3 (create_lexer (bytes "ab\ncd")))).column = 2 ∧
    (Nat.iterate lex_advance 4 (create_lexer (bytes "ab"))).column = 5 :=
  ⟨(lex_advance_position_rule (create_lexer []) (bytes "ab\nc") (bytes "d") 0).2.2.2.2.2.2.1.1,
    (lex_advance_position_rule (create_lexer []) (bytes "ab\nc") (bytes "d") 0).2.2.2.2.2.2.1.2.1,
    (lex_advance_position_rule (create_lexer []) (bytes "ab\nc") (bytes "d") 0).2.2.2.2.2.2.1.2.2.1,
    ((lex_advance_position_rule (Nat.iterate lex_advance 2 (create_lexer (bytes "ab\ncd")))
      [] [] 0).2.2.1 (by decide)).1,
    ((lex_advance_position_rule (Nat.iterate lex_advance 2 (create_lexer (bytes "ab\ncd")))
      [] [] 0).2.2.1 (by decide)).2,
    ((lex_advance_position_rule (Nat.iterate lex_advance 3 (create_lexer (bytes "ab\ncd")))
      [] [] 0).2.2.2.1 (by decide)).1,
    ((lex_advance_position_rule (Nat.iterate lex_advance 3 (create_lexer (bytes "ab\ncd")))
      [] [] 0).2.2.2.1 (by decide)).2,
    (lex_advance_position_rule (create_lexer []) (bytes "ab") [] 2).2.2.2.2.2.2.2.2.2⟩

end Virex
